import Mathlib

/-! TBits: a growable container of bits (cont/src/TBits.cxx)

Shallow embedding of the class `TBits`.  The object state is the triple of data
members `fNbits`, `fNbytes` (both `UInt_t`, kept as naturals below `2^32` with
explicit wrap-around) and `fAllBits` (a `UChar_t*`: `none` is the null pointer,
`some buf` an allocated buffer whose bytes are naturals below `256`).

Every member function that touches memory returns an `Option`: `none` stands
for an access the C++ standard leaves undefined (a null dereference, an index
outside the allocated buffer or outside a lookup table, or a read of bytes that
were never written).  Allocation is assumed to succeed.
-/

/-- Object state of a `TBits`: the three data members. -/
structure TBits where
  /-- Highest bit set plus one (the logical number of bits). -/
  fNbits : Nat
  /-- Number of `UChar_t` in `fAllBits`. -/
  fNbytes : Nat
  /-- The byte buffer; `none` is the null pointer. -/
  fAllBits : Option (List Nat)
deriving DecidableEq, Repr

namespace TBits

/-- Modulus of `UInt_t` arithmetic. -/
def UINT : Nat := 4294967296

/-- The read `fAllBits[i]`. -/
def load (s : TBits) (i : Nat) : Option Nat :=
  match s.fAllBits with
  | none => none
  | some buf => buf[i]?

/-- The first `n` bytes of a destination after `memcpy(dst, src, n)`. -/
def memcpy (src : Option (List Nat)) (n : Nat) : Option (List Nat) :=
  match src with
  | none => if n = 0 then some [] else none
  | some buf => if n ≤ buf.length then some (buf.take n) else none

/-- Constructor `TBits::TBits(UInt_t nbits)`: `fNbits` is initialised from the
argument before the body replaces a zero argument by 8. -/
def ctor (nbits : Nat) : TBits :=
  let fNbits := nbits
  let nbits := if nbits ≤ 0 then 8 else nbits
  let fNbytes := ((nbits - 1) / 8 + 1) % UINT
  { fNbits := fNbits, fNbytes := fNbytes, fAllBits := some (List.replicate fNbytes 0) }

/-- Copy constructor `TBits::TBits(const TBits &original)`. -/
def copyCtor (original : TBits) : Option TBits :=
  match memcpy original.fAllBits original.fNbytes with
  | none => none
  | some buf =>
    some { fNbits := original.fNbits, fNbytes := original.fNbytes, fAllBits := some buf }

/-- Assignment `TBits::operator=`; `same` says whether `this == &rhs`. -/
def assign (same : Bool) (self rhs : TBits) : Option TBits :=
  if same then some self
  else if rhs.fNbytes ≠ 0 then
    match memcpy rhs.fAllBits rhs.fNbytes with
    | none => none
    | some buf => some { fNbits := rhs.fNbits, fNbytes := rhs.fNbytes, fAllBits := some buf }
  else some { fNbits := rhs.fNbits, fNbytes := rhs.fNbytes, fAllBits := none }

/-- Member `TBits::Clear`. -/
def Clear (_s : TBits) : TBits :=
  { fNbits := 0, fNbytes := 0, fAllBits := none }

/-- The loop of `Compact`:
`for (needed = fNbytes-1; needed > 0 && fAllBits[needed] == 0; ) needed--;`
started at `needed`; the result is the value of `needed` when the loop exits. -/
def Compact.loop (s : TBits) : Nat → Option Nat
  | 0 => some 0
  | needed + 1 =>
    match s.load (needed + 1) with
    | none => none
    | some b => if b = 0 then Compact.loop s needed else some (needed + 1)

/-- Member `TBits::Compact`. -/
def Compact (s : TBits) : Option TBits :=
  if s.fNbits = 0 ∨ s.fAllBits = none then some s
  else
    match Compact.loop s ((s.fNbytes + UINT - 1) % UINT) with
    | none => none
    | some n =>
      let needed := (n + 1) % UINT
      if needed ≠ s.fNbytes then
        match memcpy s.fAllBits needed with
        | none => none
        | some buf =>
          some { fNbits := (8 * needed) % UINT, fNbytes := needed, fAllBits := some buf }
      else some s

/-- Table `nbits` of `CountBits`. -/
def CountBits.nbits : List Nat :=
  [0,1,1,2,1,2,2,3,1,2,2,3,2,3,3,4,
   1,2,2,3,2,3,3,4,2,3,3,4,3,4,4,5,
   1,2,2,3,2,3,3,4,2,3,3,4,3,4,4,5,
   2,3,3,4,3,4,4,5,3,4,4,5,4,5,5,6,
   1,2,2,3,2,3,3,4,2,3,3,4,3,4,4,5,
   2,3,3,4,3,4,4,5,3,4,4,5,4,5,5,6,
   2,3,3,4,3,4,4,5,3,4,4,5,4,5,5,6,
   3,4,4,5,4,5,5,6,4,5,5,6,5,6,6,7,
   1,2,2,3,2,3,3,4,2,3,3,4,3,4,4,5,
   2,3,3,4,3,4,4,5,3,4,4,5,4,5,5,6,
   2,3,3,4,3,4,4,5,3,4,4,5,4,5,5,6,
   3,4,4,5,4,5,5,6,4,5,5,6,5,6,6,7,
   2,3,3,4,3,4,4,5,3,4,4,5,4,5,5,6,
   3,4,4,5,4,5,5,6,4,5,5,6,5,6,6,7,
   3,4,4,5,4,5,5,6,4,5,5,6,5,6,6,7,
   4,5,5,6,5,6,6,7,5,6,6,7,6,7,7,8]

/-- The whole-byte loop of `CountBits`:
`for (...; i < fNbytes; i++) count += nbits[fAllBits[i]];` with `n` iterations
left. -/
def CountBits.loop (s : TBits) : Nat → Nat → Nat → Option Nat
  | 0, _, count => some count
  | n + 1, i, count =>
    match s.load i with
    | none => none
    | some b =>
      match CountBits.nbits[b]? with
      | none => none
      | some c => CountBits.loop s n (i + 1) ((count + c) % UINT)

/-- The loop over the byte holding `startBit` in `CountBits`:
`for (i = ibit; i < 8; i++) if (fAllBits[startByte] & (1<<ibit)) count++;`
with `n` iterations left (the test uses `ibit`, as the source does). -/
def CountBits.bitLoop (s : TBits) (startByte ibit : Nat) : Nat → Nat → Nat → Option Nat
  | 0, _, count => some count
  | n + 1, i, count =>
    match s.load startByte with
    | none => none
    | some b =>
      CountBits.bitLoop s startByte ibit n (i + 1)
        (if b &&& (1 <<< ibit) ≠ 0 then (count + 1) % UINT else count)

/-- Member `TBits::CountBits`. -/
def CountBits (s : TBits) (startBit : Nat) : Option Nat :=
  if startBit = 0 then CountBits.loop s s.fNbytes 0 0
  else if startBit ≥ s.fNbits then some 0
  else
    let startByte := startBit / 8
    let ibit := startBit % 8
    if ibit ≠ 0 then
      match CountBits.bitLoop s startByte ibit (8 - ibit) ibit 0 with
      | none => none
      | some count =>
        CountBits.loop s (s.fNbytes - (startByte + 1)) (startByte + 1) count
    else CountBits.loop s (s.fNbytes - startByte) startByte 0

/-- Table `fbits` of `FirstNullBit`. -/
def FirstNullBit.fbits : List Nat :=
  [0,1,0,2,0,1,0,3,0,1,0,2,0,1,0,4,
   0,1,0,2,0,1,0,3,0,1,0,2,0,1,0,5,
   0,1,0,2,0,1,0,3,0,1,0,2,0,1,0,4,
   0,1,0,2,0,1,0,3,0,1,0,2,0,1,0,6,
   0,1,0,2,0,1,0,3,0,1,0,2,0,1,0,4,
   0,1,0,2,0,1,0,3,0,1,0,2,0,1,0,5,
   0,1,0,2,0,1,0,3,0,1,0,2,0,1,0,4,
   0,1,0,2,0,1,0,3,0,1,0,2,0,1,0,7,
   0,1,0,2,0,1,0,3,0,1,0,2,0,1,0,4,
   0,1,0,2,0,1,0,3,0,1,0,2,0,1,0,5,
   0,1,0,2,0,1,0,3,0,1,0,2,0,1,0,4,
   0,1,0,2,0,1,0,3,0,1,0,2,0,1,0,6,
   0,1,0,2,0,1,0,3,0,1,0,2,0,1,0,4,
   0,1,0,2,0,1,0,3,0,1,0,2,0,1,0,5,
   0,1,0,2,0,1,0,3,0,1,0,2,0,1,0,4,
   0,1,0,2,0,1,0,3,0,1,0,2,0,1,0,8]

/-- The whole-byte loop of `FirstNullBit`:
`for (...; i < fNbytes; i++) if (fAllBits[i] != 255) return 8*i + fbits[fAllBits[i]];`
followed by `return fNbits;`, with `n` iterations left. -/
def FirstNullBit.loop (s : TBits) : Nat → Nat → Option Nat
  | 0, _ => some s.fNbits
  | n + 1, i =>
    match s.load i with
    | none => none
    | some b =>
      if b ≠ 255 then
        match FirstNullBit.fbits[b]? with
        | none => none
        | some f => some ((8 * i + f) % UINT)
      else FirstNullBit.loop s n (i + 1)

/-- The loop over the byte holding `startBit` in `FirstNullBit`:
`for (i = ibit; i < 8; i++) if ((fAllBits[startByte] & (1<<i)) == 0) return 8*startByte+i;`
with `n` iterations left; `some none` means the loop ended without returning. -/
def FirstNullBit.bitLoop (s : TBits) (startByte : Nat) : Nat → Nat → Option (Option Nat)
  | 0, _ => some none
  | n + 1, i =>
    match s.load startByte with
    | none => none
    | some b =>
      if b &&& (1 <<< i) = 0 then some (some ((8 * startByte + i) % UINT))
      else FirstNullBit.bitLoop s startByte n (i + 1)

/-- Member `TBits::FirstNullBit`. -/
def FirstNullBit (s : TBits) (startBit : Nat) : Option Nat :=
  if startBit = 0 then FirstNullBit.loop s s.fNbytes 0
  else if startBit ≥ s.fNbits then some s.fNbits
  else
    let startByte := startBit / 8
    let ibit := startBit % 8
    if ibit ≠ 0 then
      match FirstNullBit.bitLoop s startByte (8 - ibit) ibit with
      | none => none
      | some (some r) => some r
      | some none => FirstNullBit.loop s (s.fNbytes - (startByte + 1)) (startByte + 1)
    else FirstNullBit.loop s (s.fNbytes - startByte) startByte

/-- Table `fbits` of `FirstSetBit`. -/
def FirstSetBit.fbits : List Nat :=
  [8,0,1,0,2,0,1,0,3,0,1,0,2,0,1,0,
   4,0,1,0,2,0,1,0,3,0,1,0,2,0,1,0,
   5,0,1,0,2,0,1,0,3,0,1,0,2,0,1,0,
   4,0,1,0,2,0,1,0,3,0,1,0,2,0,1,0,
   6,0,1,0,2,0,1,0,3,0,1,0,2,0,1,0,
   4,0,1,0,2,0,1,0,3,0,1,0,2,0,1,0,
   5,0,1,0,2,0,1,0,3,0,1,0,2,0,1,0,
   4,0,1,0,2,0,1,0,3,0,1,0,2,0,1,0,
   7,0,1,0,2,0,1,0,3,0,1,0,2,0,1,0,
   4,0,1,0,2,0,1,0,3,0,1,0,2,0,1,0,
   5,0,1,0,2,0,1,0,3,0,1,0,2,0,1,0,
   4,0,1,0,2,0,1,0,3,0,1,0,2,0,1,0,
   6,0,1,0,2,0,1,0,3,0,1,0,2,0,1,0,
   4,0,1,0,2,0,1,0,3,0,1,0,2,0,1,0,
   5,0,1,0,2,0,1,0,3,0,1,0,2,0,1,0,
   4,0,1,0,2,0,1,0,3,0,1,0,2,0,1,0]

/-- The whole-byte loop of `FirstSetBit`:
`for (...; i < fNbytes; i++) if (fAllBits[i] != 0) return 8*i + fbits[fAllBits[i]];`
followed by `return fNbits;`, with `n` iterations left. -/
def FirstSetBit.loop (s : TBits) : Nat → Nat → Option Nat
  | 0, _ => some s.fNbits
  | n + 1, i =>
    match s.load i with
    | none => none
    | some b =>
      if b ≠ 0 then
        match FirstSetBit.fbits[b]? with
        | none => none
        | some f => some ((8 * i + f) % UINT)
      else FirstSetBit.loop s n (i + 1)

/-- The loop over the byte holding `startBit` in `FirstSetBit`:
`for (i = ibit; i < 8; i++) if ((fAllBits[startByte] & (1<<i)) != 0) return 8*startByte+i;`
with `n` iterations left; `some none` means the loop ended without returning. -/
def FirstSetBit.bitLoop (s : TBits) (startByte : Nat) : Nat → Nat → Option (Option Nat)
  | 0, _ => some none
  | n + 1, i =>
    match s.load startByte with
    | none => none
    | some b =>
      if b &&& (1 <<< i) ≠ 0 then some (some ((8 * startByte + i) % UINT))
      else FirstSetBit.bitLoop s startByte n (i + 1)

/-- Member `TBits::FirstSetBit`. -/
def FirstSetBit (s : TBits) (startBit : Nat) : Option Nat :=
  if startBit = 0 then FirstSetBit.loop s s.fNbytes 0
  else if startBit ≥ s.fNbits then some s.fNbits
  else
    let startByte := startBit / 8
    let ibit := startBit % 8
    if ibit ≠ 0 then
      match FirstSetBit.bitLoop s startByte (8 - ibit) ibit with
      | none => none
      | some (some r) => some r
      | some none => FirstSetBit.loop s (s.fNbytes - (startByte + 1)) (startByte + 1)
    else FirstSetBit.loop s (s.fNbytes - startByte) startByte

/-- Member `TBits::ResetAllBits`: `if (fAllBits) memset(fAllBits,0,fNbytes);`. -/
def ResetAllBits (s : TBits) : Option TBits :=
  match s.fAllBits with
  | none => some s
  | some buf =>
    if s.fNbytes ≤ buf.length then
      some { s with fAllBits := some (List.replicate s.fNbytes 0 ++ buf.drop s.fNbytes) }
    else none

/-- The growth branch of `SetBitNumber` (taken when `new_size > fNbytes`): a
new buffer of `new_size` bytes receives the old `fNbytes` bytes when there was
a buffer, and zeros from offset `fNbytes` on.  Without an old buffer the bytes
below offset `fNbytes` are never written, so the result is defined only for
`fNbytes = 0`. -/
def SetBitNumber.grow (s : TBits) (new_size : Nat) : Option TBits :=
  match s.fAllBits with
  | none =>
    if s.fNbytes = 0 then
      some { s with fNbytes := new_size, fAllBits := some (List.replicate new_size 0) }
    else none
  | some old_location =>
    match memcpy (some old_location) s.fNbytes with
    | none => none
    | some copied =>
      some { s with fNbytes := new_size,
                    fAllBits := some (copied ++ List.replicate (new_size - s.fNbytes) 0) }

/-- The resizing part of `SetBitNumber` (the body of `if (bitnumber >= fNbits)`). -/
def SetBitNumber.resize (s : TBits) (bitnumber : Nat) : Option TBits :=
  if bitnumber ≥ s.fNbits then
    let new_size := (bitnumber / 8 + 1) % UINT
    let grown := if new_size > s.fNbytes then SetBitNumber.grow s new_size else some s
    match grown with
    | none => none
    | some t => some { t with fNbits := (bitnumber + 1) % UINT }
  else some s

/-- Member `TBits::SetBitNumber`. -/
def SetBitNumber (s : TBits) (bitnumber : Nat) (value : Bool) : Option TBits :=
  match SetBitNumber.resize s bitnumber with
  | none => none
  | some t =>
    let loc := bitnumber / 8
    let bit := bitnumber % 8
    match t.fAllBits with
    | none => none
    | some buf =>
      match buf[loc]? with
      | none => none
      | some b =>
        let b1 := if value then (b ||| (1 <<< bit)) % 256
                  else (b &&& (0xFF ^^^ (1 <<< bit))) % 256
        some { t with fAllBits := some (buf.set loc b1) }

/-- Member `TBits::TestBitNumber`. -/
def TestBitNumber (s : TBits) (bitnumber : Nat) : Option Bool :=
  if bitnumber ≥ s.fNbits then some false
  else
    let loc := bitnumber / 8
    match s.load loc with
    | none => none
    | some value =>
      let bit := bitnumber % 8
      some (decide (value &&& (1 <<< bit) ≠ 0))

end TBits

/-! ## Observations and reachability -/

namespace TBits

/-- The test `(value & (1<<bit)) != 0` of `TestBitNumber`. -/
def bitOf (value bit : Nat) : Bool := decide (value &&& (1 <<< bit) ≠ 0)

/-- The byte stored at index `q`; 0 where no byte is stored. -/
def byteAt (s : TBits) (q : Nat) : Nat := (s.load q).getD 0

/-- The bit stored at position `p` (byte `p / 8`, bit `p % 8`), read without
the range check of `TestBitNumber`; `false` where no byte is stored. -/
def bitAt (s : TBits) (p : Nat) : Bool := bitOf (byteAt s (p / 8)) (p % 8)

/-- The stored bit at position `p`, `none` when byte `p / 8` is not in the
buffer. -/
def storedBit (s : TBits) (p : Nat) : Option Bool :=
  (s.load (p / 8)).map (fun b => bitOf b (p % 8))

/-- Consistency of the data members: the counters fit `UInt_t`, the buffer has
exactly `fNbytes` bytes (none when the pointer is null), all bytes fit
`UChar_t`, and the bytes cover the logical size. -/
structure WF (s : TBits) : Prop where
  nbits_lt : s.fNbits < UINT
  nbytes_le : s.fNbytes ≤ 536870912
  cover : s.fNbits ≤ 8 * s.fNbytes
  null : s.fAllBits = none → s.fNbytes = 0
  len : ∀ buf, s.fAllBits = some buf → buf.length = s.fNbytes
  byte_lt : ∀ q b, s.load q = some b → b < 256

/-- Padding is clear: no stored bit at or above `fNbits` is set. -/
def Pad (s : TBits) : Prop := ∀ p, s.fNbits ≤ p → bitAt s p = false

/-- States reachable through the public members, starting from the
constructor, where every bit number passed to `SetBitNumber` is below `lim`
(`lim = UINT` admits every `UInt_t`). -/
inductive Reach (lim : Nat) : TBits → Prop
  | ctor (nbits : Nat) : nbits < UINT → Reach lim (ctor nbits)
  | copyCtor {s t : TBits} : Reach lim s → copyCtor s = some t → Reach lim t
  | assign {s r t : TBits} (same : Bool) :
      Reach lim s → Reach lim r → assign same s r = some t → Reach lim t
  | clear {s : TBits} : Reach lim s → Reach lim (Clear s)
  | compact {s t : TBits} : Reach lim s → Compact s = some t → Reach lim t
  | reset {s t : TBits} : Reach lim s → ResetAllBits s = some t → Reach lim t
  | setBit {s t : TBits} (bitnumber : Nat) (value : Bool) :
      Reach lim s → bitnumber < lim → SetBitNumber s bitnumber value = some t → Reach lim t

/-- Reachable states: any `UInt_t` may be passed to `SetBitNumber`. -/
def Reachable (s : TBits) : Prop := Reach UINT s

/-- States reachable without wrap-around of `bitnumber + 1` in any
`SetBitNumber` call. -/
def ReachableNoWrap (s : TBits) : Prop := Reach (UINT - 1) s

/-- The byte `SetBitNumber` stores in place of `b`. -/
def updByte (value : Bool) (b bit : Nat) : Nat :=
  if value then (b ||| (1 <<< bit)) % 256 else (b &&& (0xFF ^^^ (1 <<< bit))) % 256

/-- Two states with the same counters and the same stored bytes. -/
def SameBits (t u : TBits) : Prop :=
  t.fNbits = u.fNbits ∧ t.fNbytes = u.fNbytes ∧ ∀ q, byteAt t q = byteAt u q

/-- Number of set bits among the eight bit positions of byte `b`. -/
def popc (b : Nat) : Nat := ((List.range 8).filter (fun k => bitOf b k)).length

/-- Sum of the bit counts of the `n` stored bytes from byte index `i` on. -/
def byteSum (s : TBits) : Nat → Nat → Nat
  | _, 0 => 0
  | i, n + 1 => popc (byteAt s i) + byteSum s (i + 1) n

/-- The number of indices `i` with `startBit ≤ i < fNbits` for which
`TestBitNumber` returns true. -/
def setCount (s : TBits) (startBit : Nat) : Nat :=
  ((List.range s.fNbits).filter
    (fun i => decide (startBit ≤ i) && (TestBitNumber s i == some true))).length

/-- The smallest index `i` with `startBit ≤ i < fNbits` for which
`TestBitNumber` returns `v`, and `fNbits` when there is none. -/
def firstIndex (s : TBits) (v : Bool) (startBit : Nat) : Nat :=
  ((List.range s.fNbits).find?
    (fun i => decide (startBit ≤ i) && (TestBitNumber s i == some v))).getD s.fNbits

/-- The lowest bit position of byte `b` whose bit equals `v`, and 8 when no
bit position below 8 qualifies. -/
def lowBit (v : Bool) (b : Nat) : Nat :=
  ((List.range 8).find? (fun k => bitOf b k == v)).getD 8

/-- The control flow shared by `FirstNullBit` and `FirstSetBit`, with the byte
loop and the bit loop as parameters; both members are instances of it. -/
def scanWith (s : TBits) (loop : Nat → Nat → Option Nat)
    (bitLoop : Nat → Nat → Nat → Option (Option Nat)) (startBit : Nat) : Option Nat :=
  if startBit = 0 then loop s.fNbytes 0
  else if startBit ≥ s.fNbits then some s.fNbits
  else
    let startByte := startBit / 8
    let ibit := startBit % 8
    if ibit ≠ 0 then
      match bitLoop startByte (8 - ibit) ibit with
      | none => none
      | some (some r) => some r
      | some none => loop (s.fNbytes - (startByte + 1)) (startByte + 1)
    else loop (s.fNbytes - startByte) startByte

/-- Result of a scan for the first stored bit equal to `v` from `start` on: `r`
is the first such position among the stored bits, or `r` is `fNbits` and no
stored bit from `start` on equals `v`. -/
def FirstStored (s : TBits) (v : Bool) (start r : Nat) : Prop :=
  (start ≤ r ∧ r < 8 * s.fNbytes ∧ bitAt s r = v ∧
      ∀ p, start ≤ p → p < r → bitAt s p = !v) ∨
    (r = s.fNbits ∧ ∀ p, start ≤ p → p < 8 * s.fNbytes → bitAt s p = !v)

/-! ## Bytes and bits -/

set_option maxRecDepth 20000

theorem bitOf_eq_testBit (b k : Nat) : bitOf b k = b.testBit k := by
  unfold bitOf
  rw [Nat.one_shiftLeft, Nat.and_two_pow]
  cases h : b.testBit k <;> simp

theorem bitOf_or (b k j : Nat) (hj : j < 8) :
    bitOf ((b ||| (1 <<< k)) % 256) j = (bitOf b j || decide (j = k)) := by
  simp only [bitOf_eq_testBit]
  rw [show (256 : Nat) = 2 ^ 8 from rfl, Nat.testBit_mod_two_pow, Nat.testBit_or,
    Nat.one_shiftLeft, Nat.testBit_two_pow]
  simp [hj, eq_comm]

theorem bitOf_andnot (b k j : Nat) (hj : j < 8) :
    bitOf ((b &&& (0xFF ^^^ (1 <<< k))) % 256) j = (bitOf b j && !decide (j = k)) := by
  simp only [bitOf_eq_testBit]
  rw [show (256 : Nat) = 2 ^ 8 from rfl, Nat.testBit_mod_two_pow, Nat.testBit_and,
    Nat.testBit_xor, Nat.one_shiftLeft, Nat.testBit_two_pow]
  have h255 : (255 : Nat).testBit j = true := by
    interval_cases j <;> decide
  simp [hj, h255, eq_comm]

theorem bitOf_zero (k : Nat) : bitOf 0 k = false := by
  simp [bitOf]

theorem load_mk (a b : Nat) (buf : List Nat) (q : Nat) :
    load ⟨a, b, some buf⟩ q = buf[q]? := rfl

theorem load_null (a b : Nat) (q : Nat) : load ⟨a, b, none⟩ q = none := rfl

theorem byteAt_mk (a b : Nat) (buf : List Nat) (q : Nat) :
    byteAt ⟨a, b, some buf⟩ q = buf[q]?.getD 0 := rfl

theorem byteAt_null (a b : Nat) (q : Nat) : byteAt ⟨a, b, none⟩ q = 0 := rfl

/-- In a consistent state a byte index below `fNbytes` is inside the buffer. -/
theorem WF.load_lt {s : TBits} (hs : WF s) {q : Nat} (hq : q < s.fNbytes) :
    s.load q = some (byteAt s q) ∧ byteAt s q < 256 := by
  obtain ⟨nb, ny, buf⟩ := s
  cases buf with
  | none => have := hs.null rfl; simp at this hq; omega
  | some buf =>
    have hl : buf.length = ny := hs.len buf rfl
    have hq2 : q < buf.length := by simpa [hl] using hq
    have h1 : buf[q]? = some buf[q] := List.getElem?_eq_getElem hq2
    have h2 := hs.byte_lt q buf[q] (by simp [load_mk, h1])
    simp [load_mk, byteAt_mk, h1, h2]

/-- In a consistent state nothing is stored at or above byte index `fNbytes`. -/
theorem WF.load_ge {s : TBits} (hs : WF s) {q : Nat} (hq : s.fNbytes ≤ q) :
    s.load q = none ∧ byteAt s q = 0 := by
  obtain ⟨nb, ny, buf⟩ := s
  cases buf with
  | none => simp [load_null, byteAt_null]
  | some buf =>
    have hl : buf.length = ny := hs.len buf rfl
    have h1 : buf[q]? = none := List.getElem?_eq_none (by simpa [hl] using hq)
    simp [load_mk, byteAt_mk, h1]

theorem WF.byteAt_lt {s : TBits} (hs : WF s) (q : Nat) : byteAt s q < 256 := by
  by_cases hq : q < s.fNbytes
  · exact (hs.load_lt hq).2
  · rw [(hs.load_ge (Nat.le_of_not_lt hq)).2]; decide

theorem WF.bitAt_ge {s : TBits} (hs : WF s) {p : Nat} (hp : 8 * s.fNbytes ≤ p) :
    bitAt s p = false := by
  unfold bitAt
  rw [(hs.load_ge (by omega : s.fNbytes ≤ p / 8)).2, bitOf_zero]

/-- In a consistent state `TestBitNumber` returns the stored bit inside the
logical range and `false` outside. -/
theorem WF.testBit_eq {s : TBits} (hs : WF s) (i : Nat) :
    TestBitNumber s i = some (decide (i < s.fNbits) && bitAt s i) := by
  unfold TestBitNumber
  by_cases h : i ≥ s.fNbits
  · simp [h, Nat.not_lt.mpr h]
  · have hlt : i < s.fNbits := Nat.lt_of_not_ge h
    have hq : i / 8 < s.fNbytes := by have := hs.cover; omega
    simp [h, hlt, (hs.load_lt hq).1, bitAt, bitOf]

/-! ## Effect of `SetBitNumber` -/

theorem updByte_lt (v : Bool) (b k : Nat) : updByte v b k < 256 := by
  unfold updByte; split <;> exact Nat.mod_lt _ (by decide)

theorem bitOf_updByte (v : Bool) (b k j : Nat) (hj : j < 8) :
    bitOf (updByte v b k) j = if j = k then v else bitOf b j := by
  unfold updByte
  cases v
  · simp only [Bool.false_eq_true, if_false]
    rw [bitOf_andnot b k j hj]; by_cases h : j = k <;> simp [h]
  · simp only [if_true]
    rw [bitOf_or b k j hj]; by_cases h : j = k <;> simp [h]

/-- The resizing part of `SetBitNumber` never fails on a consistent state; it
keeps every stored byte and makes byte `bitnumber / 8` available. -/
theorem resize_spec {s : TBits} (hs : WF s) {i : Nat} (hi : i < UINT) :
    ∃ t, SetBitNumber.resize s i = some t ∧ WF t ∧
      t.fNbits = (if s.fNbits ≤ i then (i + 1) % UINT else s.fNbits) ∧
      t.fNbytes = (if s.fNbits ≤ i then max s.fNbytes (i / 8 + 1) else s.fNbytes) ∧
      (∀ q, byteAt t q = byteAt s q) ∧ i / 8 < t.fNbytes := by
  have hcov := hs.cover
  have hnb := hs.nbytes_le
  unfold UINT at hi
  have hsz : (i / 8 + 1) % UINT = i / 8 + 1 := by
    unfold UINT; exact Nat.mod_eq_of_lt (by omega)
  have hmod : (i + 1) % UINT ≤ i + 1 := Nat.mod_le _ _
  have hmodlt : (i + 1) % UINT < UINT := Nat.mod_lt _ (by decide)
  unfold SetBitNumber.resize
  by_cases hge : s.fNbits ≤ i
  · simp only [ge_iff_le, hge, if_true, hsz]
    by_cases hbig : i / 8 + 1 > s.fNbytes
    · simp only [hbig, if_true]
      obtain ⟨nb, ny, buf⟩ := s
      cases buf with
      | none =>
        have h0 : ny = 0 := hs.null rfl
        subst h0
        refine ⟨⟨(i + 1) % UINT, i / 8 + 1, some (List.replicate (i / 8 + 1) 0)⟩,
          by simp [SetBitNumber.grow], ?_, rfl, by simp, ?_, by simp⟩
        · refine ⟨hmodlt, by simp; omega, by simp; omega, by simp, by simp, ?_⟩
          intro q b hb
          simp only [load_mk, List.getElem?_replicate] at hb
          split at hb <;> simp at hb
          omega
        · intro q
          simp only [byteAt_mk, byteAt_null, List.getElem?_replicate]
          split <;> rfl
      | some buf =>
        have hl : buf.length = ny := hs.len buf rfl
        simp only at hbig hcov hnb
        have hcp : memcpy (some buf) ny = some buf := by
          simp [memcpy, hl]
        refine ⟨⟨(i + 1) % UINT, i / 8 + 1,
            some (buf ++ List.replicate (i / 8 + 1 - ny) 0)⟩,
          by simp [SetBitNumber.grow, hcp], ?_, rfl, ?_, ?_, by simp⟩
        · refine ⟨hmodlt, by simp; omega, by simp; omega, by simp, by simp; omega, ?_⟩
          intro q b hb
          simp only [load_mk] at hb
          by_cases hq : q < buf.length
          · rw [List.getElem?_append_left hq] at hb
            exact hs.byte_lt q b (by simpa [load_mk] using hb)
          · rw [List.getElem?_append_right (Nat.le_of_not_lt hq),
              List.getElem?_replicate] at hb
            split at hb <;> simp at hb
            omega
        · simp; omega
        · intro q
          simp only [byteAt_mk]
          by_cases hq : q < buf.length
          · rw [List.getElem?_append_left hq]
          · rw [List.getElem?_append_right (Nat.le_of_not_lt hq),
              List.getElem?_replicate, List.getElem?_eq_none (Nat.le_of_not_lt hq)]
            split <;> rfl
    · simp only [hbig, if_false]
      have hle : i / 8 + 1 ≤ s.fNbytes := Nat.le_of_not_lt hbig
      refine ⟨{ s with fNbits := (i + 1) % UINT }, rfl, ?_, rfl, ?_, fun q => rfl,
        by simp; omega⟩
      · exact ⟨hmodlt, hs.nbytes_le, by simp; omega, hs.null, hs.len, hs.byte_lt⟩
      · simp; omega
  · have hlt : i < s.fNbits := Nat.lt_of_not_le hge
    simp only [ge_iff_le, hge, if_false]
    exact ⟨s, rfl, hs, rfl, rfl, fun q => rfl, by omega⟩

/-- On a consistent state `SetBitNumber` returns; the result is consistent,
its sizes are those computed by the resizing part, and exactly byte
`bitnumber / 8` is rewritten. -/
theorem setBit_bytes {s : TBits} (hs : WF s) {i : Nat} (hi : i < UINT) (v : Bool) :
    ∃ t, SetBitNumber s i v = some t ∧ WF t ∧
      t.fNbits = (if s.fNbits ≤ i then (i + 1) % UINT else s.fNbits) ∧
      t.fNbytes = (if s.fNbits ≤ i then max s.fNbytes (i / 8 + 1) else s.fNbytes) ∧
      (∀ q, byteAt t q =
        if q = i / 8 then updByte v (byteAt s (i / 8)) (i % 8) else byteAt s q) := by
  obtain ⟨r, hr, hwf, hnb, hny, hby, hloc⟩ := resize_spec hs hi
  obtain ⟨rb, ry, rbuf⟩ := r
  cases rbuf with
  | none => have := hwf.null rfl; simp at this hloc; omega
  | some buf =>
    have hl : buf.length = ry := hwf.len buf rfl
    simp only at hloc hnb hny
    have hq : i / 8 < buf.length := by omega
    have hget : buf[i / 8]? = some (byteAt s (i / 8)) := by
      have := (hwf.load_lt (q := i / 8) (by simpa using hloc)).1
      rw [hby] at this; simpa [load_mk] using this
    refine ⟨⟨rb, ry, some (buf.set (i / 8) (updByte v (byteAt s (i / 8)) (i % 8)))⟩,
      ?_, ?_, hnb, hny, ?_⟩
    · simp [SetBitNumber, hr, hget, updByte]
    · refine ⟨hwf.nbits_lt, hwf.nbytes_le, hwf.cover, by simp, by simp [hl], ?_⟩
      intro q b hb
      simp only [load_mk, List.getElem?_set] at hb
      by_cases hqe : i / 8 = q
      · simp only [hqe, if_true] at hb
        split at hb
        · simp at hb; rw [← hb]; exact updByte_lt _ _ _
        · simp at hb
      · simp only [hqe, if_false] at hb
        exact hwf.byte_lt q b (by simpa [load_mk] using hb)
    · intro q
      simp only [byteAt_mk, List.getElem?_set]
      by_cases hqe : q = i / 8
      · subst hqe; simp [hq]
      · have hne : ¬ i / 8 = q := fun h => hqe h.symm
        simp only [hne, if_false, hqe]
        rw [← hby q]; rfl

/-- `SetBitNumber` is a point update of the stored bits. -/
theorem setBit_bits {s : TBits} (hs : WF s) {i : Nat} (hi : i < UINT) (v : Bool) :
    ∃ t, SetBitNumber s i v = some t ∧ WF t ∧
      t.fNbits = (if s.fNbits ≤ i then (i + 1) % UINT else s.fNbits) ∧
      t.fNbytes = (if s.fNbits ≤ i then max s.fNbytes (i / 8 + 1) else s.fNbytes) ∧
      (∀ p, bitAt t p = if p = i then v else bitAt s p) := by
  obtain ⟨t, ht, hwf, hnb, hny, hby⟩ := setBit_bytes hs hi v
  refine ⟨t, ht, hwf, hnb, hny, ?_⟩
  intro p
  unfold bitAt
  rw [hby]
  by_cases hq : p / 8 = i / 8
  · simp only [hq, if_true]
    rw [bitOf_updByte v _ _ _ (Nat.mod_lt _ (by decide))]
    by_cases hp : p = i
    · simp [hp]
    · have : ¬ p % 8 = i % 8 := by omega
      simp [hp, this]
  · have hp : ¬ p = i := fun h => hq (by rw [h])
    simp [hq, hp]

/-! ## Effect of the other members -/

theorem SameBits.bitAt_eq {t u : TBits} (h : SameBits t u) (p : Nat) :
    bitAt t p = bitAt u p := by
  unfold bitAt; rw [h.2.2]

theorem ctor_nbytes (n : Nat) (hn : n < UINT) :
    (ctor n).fNbytes = if n = 0 then 1 else (n - 1) / 8 + 1 := by
  unfold UINT at hn
  by_cases h0 : n = 0
  · subst h0; rfl
  · have : ¬ n ≤ 0 := by omega
    simp only [ctor, this, if_false, h0, UINT]
    exact Nat.mod_eq_of_lt (by omega)

theorem getD_replicate_zero (k q : Nat) : (List.replicate k 0)[q]?.getD 0 = 0 := by
  rw [List.getElem?_replicate]; split <;> rfl

theorem replicate_byte_lt {k q b : Nat} (h : (List.replicate k 0)[q]? = some b) :
    b < 256 := by
  rw [List.getElem?_replicate] at h
  split at h <;> simp at h
  omega

theorem ctor_byteAt (n q : Nat) : byteAt (ctor n) q = 0 :=
  getD_replicate_zero _ q

theorem ctor_wf (n : Nat) (hn : n < UINT) : WF (ctor n) := by
  have hny := ctor_nbytes n hn
  have hb : ∀ q b, load (ctor n) q = some b → b < 256 := by
    intro q b hb
    exact replicate_byte_lt hb
  have hl : ∀ buf, (ctor n).fAllBits = some buf → buf.length = (ctor n).fNbytes := by
    intro buf h
    simp only [ctor, Option.some.injEq] at h
    rw [← h]; simp [ctor]
  have hnu : (ctor n).fAllBits = none → (ctor n).fNbytes = 0 := by
    intro h; simp [ctor] at h
  have hnb : (ctor n).fNbits = n := rfl
  unfold UINT at hn
  refine ⟨by rw [hnb]; unfold UINT; exact hn, ?_, ?_, hnu, hl, hb⟩
  · rw [hny]; split <;> omega
  · rw [hny, hnb]; split <;> omega

theorem memcpy_wf {s : TBits} (hs : WF s) :
    ∃ buf, memcpy s.fAllBits s.fNbytes = some buf ∧ buf.length = s.fNbytes ∧
      ∀ q, buf[q]? = s.load q := by
  obtain ⟨nb, ny, buf⟩ := s
  cases buf with
  | none =>
    have h0 : ny = 0 := hs.null rfl
    subst h0
    exact ⟨[], by simp [memcpy], rfl, fun q => by simp [load_null]⟩
  | some buf =>
    have hl : buf.length = ny := hs.len buf rfl
    refine ⟨buf, by simp [memcpy, hl], hl, fun q => rfl⟩

theorem wf_of_same (s : TBits) (hs : WF s) (nb ny : Nat) (buf : List Nat)
    (h1 : nb = s.fNbits) (h2 : ny = s.fNbytes) (hl : buf.length = s.fNbytes)
    (hq : ∀ q, buf[q]? = s.load q) : WF ⟨nb, ny, some buf⟩ := by
  subst h1 h2
  refine ⟨hs.nbits_lt, hs.nbytes_le, hs.cover, by simp, by simp [hl], ?_⟩
  intro q b hb
  rw [load_mk, hq] at hb
  exact hs.byte_lt q b hb

theorem copyCtor_spec {s : TBits} (hs : WF s) :
    ∃ t, copyCtor s = some t ∧ WF t ∧ SameBits t s := by
  obtain ⟨buf, hc, hl, hq⟩ := memcpy_wf hs
  refine ⟨⟨s.fNbits, s.fNbytes, some buf⟩, by simp [copyCtor, hc],
    wf_of_same s hs _ _ buf rfl rfl hl hq, rfl, rfl, ?_⟩
  intro q
  simp [byteAt, load_mk, hq]

theorem assign_spec {s r : TBits} (hs : WF s) (hr : WF r) (same : Bool) :
    ∃ t, assign same s r = some t ∧ WF t ∧ (SameBits t s ∨ SameBits t r) := by
  cases same with
  | true => exact ⟨s, rfl, hs, Or.inl ⟨rfl, rfl, fun _ => rfl⟩⟩
  | false =>
    by_cases h0 : r.fNbytes = 0
    · refine ⟨⟨r.fNbits, r.fNbytes, none⟩, by simp [assign, h0], ?_, Or.inr ⟨rfl, rfl, ?_⟩⟩
      · exact ⟨hr.nbits_lt, hr.nbytes_le, hr.cover, fun _ => h0, by simp,
          by simp [load_null]⟩
      · intro q
        rw [byteAt_null, (hr.load_ge (by omega : r.fNbytes ≤ q)).2]
    · obtain ⟨buf, hc, hl, hq⟩ := memcpy_wf hr
      refine ⟨⟨r.fNbits, r.fNbytes, some buf⟩, by simp [assign, h0, hc],
        wf_of_same r hr _ _ buf rfl rfl hl hq, Or.inr ⟨rfl, rfl, ?_⟩⟩
      intro q
      simp [byteAt, load_mk, hq]

theorem clear_wf (s : TBits) : WF (Clear s) :=
  ⟨by simp [Clear, UINT], by simp [Clear], by simp [Clear], fun _ => rfl, by simp [Clear],
    by simp [Clear, load]⟩

theorem clear_byteAt (s : TBits) (q : Nat) : byteAt (Clear s) q = 0 := rfl

theorem reset_spec {s : TBits} (hs : WF s) :
    ∃ t, ResetAllBits s = some t ∧ WF t ∧ t.fNbits = s.fNbits ∧
      t.fNbytes = s.fNbytes ∧ ∀ q, byteAt t q = 0 := by
  obtain ⟨nb, ny, buf⟩ := s
  cases buf with
  | none =>
    exact ⟨_, rfl, hs, rfl, rfl, fun q => rfl⟩
  | some buf =>
    have hl : buf.length = ny := hs.len buf rfl
    have hd : List.drop ny buf = [] := List.drop_eq_nil_of_le (by omega)
    refine ⟨⟨nb, ny, some (List.replicate ny 0)⟩, by simp [ResetAllBits, hl, hd], ?_,
      rfl, rfl, ?_⟩
    · refine ⟨hs.nbits_lt, hs.nbytes_le, hs.cover, by simp, by simp, ?_⟩
      intro q b hb
      simp only [load_mk, List.getElem?_replicate] at hb
      split at hb <;> simp at hb
      omega
    · intro q
      simp only [byteAt_mk, List.getElem?_replicate]
      split <;> rfl

/-- The backward scan of `Compact` stops at the last nonzero byte at or below
its start, or at 0. -/
theorem compact_loop_spec {s : TBits} (hs : WF s) :
    ∀ n, n < s.fNbytes → ∃ m, Compact.loop s n = some m ∧ m ≤ n ∧
      (∀ q, m < q → q ≤ n → byteAt s q = 0) ∧ (m = 0 ∨ byteAt s m ≠ 0) := by
  intro n
  induction n with
  | zero =>
    intro _
    exact ⟨0, rfl, Nat.le_refl _, fun q h1 h2 => by omega, Or.inl rfl⟩
  | succ n ih =>
    intro hn
    have hld := (hs.load_lt hn).1
    by_cases hz : byteAt s (n + 1) = 0
    · obtain ⟨m, hm, hle, hzero, hlast⟩ := ih (by omega)
      refine ⟨m, by simp [Compact.loop, hld, hz, hm], by omega, ?_, hlast⟩
      intro q h1 h2
      by_cases hq : q = n + 1
      · rw [hq]; exact hz
      · exact hzero q h1 (by omega)
    · exact ⟨n + 1, by simp [Compact.loop, hld, hz], Nat.le_refl _,
        fun q h1 h2 => by omega, Or.inr hz⟩

/-- On a consistent state `Compact` returns.  Either the state is unchanged, or
trailing zero bytes were dropped: then the byte count is smaller but at least
1, `fNbits` is 8 times the new byte count, and no stored byte changed. -/
theorem compact_spec {s : TBits} (hs : WF s) :
    ∃ t, Compact s = some t ∧ WF t ∧
      ((t = s ∧ (s.fNbits = 0 ∨ s.fAllBits = none ∨ s.fNbytes = 1 ∨
          byteAt s (s.fNbytes - 1) ≠ 0)) ∨
        (s.fNbits ≠ 0 ∧ 1 ≤ t.fNbytes ∧ t.fNbytes < s.fNbytes ∧
          t.fNbits = 8 * t.fNbytes ∧ (∀ q, byteAt t q = byteAt s q) ∧
          (t.fNbytes = 1 ∨ byteAt s (t.fNbytes - 1) ≠ 0))) := by
  by_cases he : s.fNbits = 0 ∨ s.fAllBits = none
  · refine ⟨s, by simp [Compact, he], hs, Or.inl ⟨rfl, ?_⟩⟩
    rcases he with h | h
    · exact Or.inl h
    · exact Or.inr (Or.inl h)
  · have hnb : s.fNbits ≠ 0 := fun h => he (Or.inl h)
    have hcov := hs.cover
    have hnyle := hs.nbytes_le
    have hpos : 0 < s.fNbytes := by omega
    have hpred : (s.fNbytes + UINT - 1) % UINT = s.fNbytes - 1 := by
      unfold UINT
      rw [show s.fNbytes + 4294967296 - 1 = (s.fNbytes - 1) + 4294967296 by omega,
        Nat.add_mod_right]
      exact Nat.mod_eq_of_lt (by omega)
    obtain ⟨m, hm, hle, hzero, hlast⟩ := compact_loop_spec hs (s.fNbytes - 1) (by omega)
    have hneed : (m + 1) % UINT = m + 1 := by
      unfold UINT; exact Nat.mod_eq_of_lt (by omega)
    by_cases hsame : m + 1 = s.fNbytes
    · refine ⟨s, ?_, hs, Or.inl ⟨rfl, Or.inr (Or.inr ?_)⟩⟩
      · unfold Compact
        simp only [he, if_false, hpred, hm, hneed]
        simp [hsame]
      · have hm1 : s.fNbytes - 1 = m := by omega
        rcases hlast with h | h
        · left; omega
        · right; rw [hm1]; exact h
    · obtain ⟨nb, ny, buf⟩ := s
      cases buf with
      | none => exact absurd (Or.inr rfl) he
      | some buf =>
        have hl : buf.length = ny := hs.len buf rfl
        simp only at hpos hle hsame hcov hnyle hnb
        have hlt : m + 1 < ny := by omega
        have hcp : memcpy (some buf) (m + 1) = some (buf.take (m + 1)) := by
          simp [memcpy, hl]; omega
        have h8 : (8 * (m + 1)) % UINT = 8 * (m + 1) := by
          unfold UINT; exact Nat.mod_eq_of_lt (by omega)
        have hbytes : ∀ q, byteAt ⟨8 * (m + 1), m + 1, some (buf.take (m + 1))⟩ q
            = byteAt ⟨nb, ny, some buf⟩ q := by
          intro q
          simp only [byteAt_mk, List.getElem?_take]
          by_cases hq : q < m + 1
          · simp [hq]
          · simp only [hq, if_false]
            by_cases hq2 : q < ny
            · have := hzero q (by omega) (by simp; omega)
              rw [byteAt_mk] at this; rw [this]; rfl
            · rw [List.getElem?_eq_none (by omega)]
        refine ⟨⟨8 * (m + 1), m + 1, some (buf.take (m + 1))⟩, ?_, ?_, Or.inr
          ⟨hnb, by simp, by simpa using hlt, rfl, hbytes, ?_⟩⟩
        · unfold Compact
          simp only [he, if_false, hpred, hm, hneed]
          simp [hsame, hcp, h8]
        · refine ⟨by unfold UINT; simp; omega, by simp; omega, by simp, by simp,
            by simp; omega, ?_⟩
          intro q b hb
          simp only [load_mk, List.getElem?_take] at hb
          split at hb
          · exact hs.byte_lt q b (by simpa [load_mk] using hb)
          · simp at hb
        · rcases hlast with h | h
          · left; simp [h]
          · right; simpa using h

/-! ## Invariants of reachable states -/

theorem Reach.mono {lim lim2 : Nat} (hle : lim ≤ lim2) {s : TBits} (h : Reach lim s) :
    Reach lim2 s := by
  induction h with
  | ctor n hn => exact Reach.ctor n hn
  | copyCtor _ ht ih => exact Reach.copyCtor ih ht
  | assign same _ _ ht ih1 ih2 => exact Reach.assign same ih1 ih2 ht
  | clear _ ih => exact Reach.clear ih
  | compact _ ht ih => exact Reach.compact ih ht
  | reset _ ht ih => exact Reach.reset ih ht
  | setBit i v _ hi ht ih => exact Reach.setBit i v ih (by omega) ht

/-- Every reachable state is consistent, whatever bit numbers were passed. -/
theorem Reach.wf_of_le {lim : Nat} (hlim : lim ≤ UINT) {s : TBits} (h : Reach lim s) : WF s := by
  induction h with
  | ctor n hn => exact ctor_wf n hn
  | copyCtor _ ht ih =>
    obtain ⟨t, h1, h2, _⟩ := copyCtor_spec ih
    rw [h1] at ht; cases ht; exact h2
  | assign same _ _ ht ih1 ih2 =>
    obtain ⟨t, h1, h2, _⟩ := assign_spec ih1 ih2 same
    rw [h1] at ht; cases ht; exact h2
  | clear _ _ => exact clear_wf _
  | compact _ ht ih =>
    obtain ⟨t, h1, h2, _⟩ := compact_spec ih
    rw [h1] at ht; cases ht; exact h2
  | reset _ ht ih =>
    obtain ⟨t, h1, h2, _⟩ := reset_spec ih
    rw [h1] at ht; cases ht; exact h2
  | setBit i v _ hi ht ih =>
    obtain ⟨t, h1, h2, _⟩ := setBit_bits ih (Nat.lt_of_lt_of_le hi hlim) v
    rw [h1] at ht; cases ht; exact h2

theorem Reachable.wf {s : TBits} (h : Reachable s) : WF s :=
  Reach.wf_of_le (Nat.le_refl _) h

theorem ReachableNoWrap.reachable {s : TBits} (h : ReachableNoWrap s) : Reachable s :=
  Reach.mono (Nat.sub_le _ _) h

theorem ReachableNoWrap.consistent {s : TBits} (h : ReachableNoWrap s) : WF s :=
  h.reachable.wf

/-- `SetBitNumber` with a bit number whose successor does not wrap keeps the
padding clear. -/
theorem setBit_pad {s t : TBits} (hs : WF s) (hp : Pad s) {i : Nat} (hi : i < UINT - 1)
    {v : Bool} (ht : SetBitNumber s i v = some t) : Pad t := by
  have hi2 : i < UINT := by unfold UINT at hi ⊢; omega
  obtain ⟨t2, h1, _, hnb, _, hbits⟩ := setBit_bits hs hi2 v
  rw [h1] at ht; cases ht
  intro p hle
  have hmod : (i + 1) % UINT = i + 1 := by
    unfold UINT at hi ⊢; exact Nat.mod_eq_of_lt (by omega)
  rw [hnb, hmod] at hle
  rw [hbits]
  by_cases hge : s.fNbits ≤ i
  · simp only [hge, if_true] at hle
    have hne : ¬ p = i := by omega
    simp only [hne, if_false]
    exact hp p (by omega)
  · simp only [hge, if_false] at hle
    have hne : ¬ p = i := by omega
    simp only [hne, if_false]
    exact hp p hle

/-- Without wrap-around, the padding of every reachable state is clear. -/
theorem ReachableNoWrap.pad {s : TBits} (h : ReachableNoWrap s) : Pad s := by
  unfold ReachableNoWrap at h
  induction h with
  | ctor n hn =>
    intro p _
    unfold bitAt; rw [ctor_byteAt, bitOf_zero]
  | copyCtor hs ht ih =>
    obtain ⟨t, h1, _, hsame⟩ := copyCtor_spec (ReachableNoWrap.consistent hs)
    rw [h1] at ht; cases ht
    intro p hle
    rw [hsame.bitAt_eq]; exact ih p (by rw [← hsame.1]; exact hle)
  | assign same hs hr ht ih1 ih2 =>
    obtain ⟨t, h1, _, hsame⟩ := assign_spec (ReachableNoWrap.consistent hs) (ReachableNoWrap.consistent hr) same
    rw [h1] at ht; cases ht
    intro p hle
    rcases hsame with hsame | hsame
    · rw [hsame.bitAt_eq]; exact ih1 p (by rw [← hsame.1]; exact hle)
    · rw [hsame.bitAt_eq]; exact ih2 p (by rw [← hsame.1]; exact hle)
  | clear _ _ =>
    intro p _
    unfold bitAt; rw [clear_byteAt, bitOf_zero]
  | compact hs ht ih =>
    obtain ⟨t, h1, hwf, hcase⟩ := compact_spec (ReachableNoWrap.consistent hs)
    rw [h1] at ht; cases ht
    rcases hcase with ⟨heq, _⟩ | ⟨_, _, _, hnb, _, _⟩
    · rw [heq]; exact ih
    · intro p hle
      exact hwf.bitAt_ge (by rw [← hnb]; exact hle)
  | reset hs ht _ =>
    obtain ⟨t, h1, _, _, _, hz⟩ := reset_spec (ReachableNoWrap.consistent hs)
    rw [h1] at ht; cases ht
    intro p _
    unfold bitAt; rw [hz, bitOf_zero]
  | setBit i v hs hi ht ih =>
    exact setBit_pad (ReachableNoWrap.consistent hs) ih hi ht

/-- With clear padding `TestBitNumber` returns exactly the stored bit. -/
theorem testBit_eq_bitAt {s : TBits} (hs : WF s) (hp : Pad s) (i : Nat) :
    TestBitNumber s i = some (bitAt s i) := by
  rw [hs.testBit_eq]
  by_cases h : i < s.fNbits
  · simp [h]
  · simp [h, hp i (Nat.le_of_not_lt h)]

/-! ## The counting loop -/

set_option maxRecDepth 100000 in
theorem nbits_map : CountBits.nbits = (List.range 256).map popc := by decide

theorem nbits_get {b : Nat} (hb : b < 256) : CountBits.nbits[b]? = some (popc b) := by
  rw [nbits_map, List.getElem?_map, List.getElem?_range hb]; rfl

theorem popc_le (b : Nat) : popc b ≤ 8 := by
  unfold popc
  exact Nat.le_trans (List.length_filter_le _ _) (by simp)

/-- On a consistent state the whole-byte loop of `CountBits` returns the
running count plus the bit counts of the bytes it visits, modulo `2^32`. -/
theorem countLoop_eq {s : TBits} (hs : WF s) :
    ∀ n i c, i + n ≤ s.fNbytes → c < UINT →
      CountBits.loop s n i c = some ((c + byteSum s i n) % UINT) := by
  intro n
  induction n with
  | zero =>
    intro i c _ hc
    show some c = some ((c + 0) % UINT)
    rw [Nat.add_zero, Nat.mod_eq_of_lt hc]
  | succ n ih =>
    intro i c hi hc
    have hld := hs.load_lt (q := i) (by omega)
    have hstep := ih (i + 1) ((c + popc (byteAt s i)) % UINT) (by omega)
      (Nat.mod_lt _ (by decide))
    rw [CountBits.loop, hld.1]
    simp only []
    rw [nbits_get hld.2]
    simp only [hstep, byteSum]
    congr 1
    rw [Nat.add_mod, Nat.mod_mod, ← Nat.add_mod, Nat.add_assoc]

theorem byteSum_zero (s : TBits) :
    ∀ n i, (∀ q, i ≤ q → q < i + n → byteAt s q = 0) → byteSum s i n = 0 := by
  intro n
  induction n with
  | zero => intro i _; rfl
  | succ n ih =>
    intro i h
    have h0 := h i (Nat.le_refl _) (by omega)
    have h1 := ih (i + 1) (fun q hq1 hq2 => h q (by omega) (by omega))
    simp only [byteSum, h0, h1]; decide

theorem byteSum_single (s : TBits) (q0 : Nat) :
    ∀ n i, i ≤ q0 → q0 < i + n →
      (∀ q, i ≤ q → q < i + n → q ≠ q0 → byteAt s q = 0) →
      byteSum s i n = popc (byteAt s q0) := by
  intro n
  induction n with
  | zero => intro i h1 h2; omega
  | succ n ih =>
    intro i h1 h2 h
    by_cases hq : i = q0
    · subst hq
      have hz := byteSum_zero s n (i + 1)
        (fun q hq1 hq2 => h q (by omega) (by omega) (by omega))
      simp only [byteSum, hz, Nat.add_zero]
    · have h0 := h i (Nat.le_refl _) (by omega) hq
      have h1 := ih (i + 1) (by omega) (by omega)
        (fun q hq1 hq2 hne => h q (by omega) (by omega) hne)
      simp only [byteSum, h0, h1]
      have : popc 0 = 0 := by decide
      omega

/-! ## The scanning loops -/

set_option maxRecDepth 100000 in
theorem fset_map : FirstSetBit.fbits = (List.range 256).map (lowBit true) := by decide

set_option maxRecDepth 100000 in
theorem fnull_map : FirstNullBit.fbits = (List.range 256).map (lowBit false) := by decide

theorem fset_get {b : Nat} (hb : b < 256) :
    FirstSetBit.fbits[b]? = some (lowBit true b) := by
  rw [fset_map, List.getElem?_map, List.getElem?_range hb]; rfl

theorem fnull_get {b : Nat} (hb : b < 256) :
    FirstNullBit.fbits[b]? = some (lowBit false b) := by
  rw [fnull_map, List.getElem?_map, List.getElem?_range hb]; rfl

/-- An iteration of the byte loop of `FirstSetBit` at a nonzero byte returns. -/
theorem firstSetLoop_hit {s : TBits} (hs : WF s) {n i : Nat} (hi : i < s.fNbytes)
    (hb : byteAt s i ≠ 0) :
    FirstSetBit.loop s (n + 1) i = some ((8 * i + lowBit true (byteAt s i)) % UINT) := by
  have hld := hs.load_lt hi
  rw [FirstSetBit.loop, hld.1]
  simp only [ne_eq, hb, not_false_eq_true, if_true]
  rw [fset_get hld.2]

/-- An iteration of the byte loop of `FirstSetBit` at a zero byte moves on. -/
theorem firstSetLoop_skip {s : TBits} (hs : WF s) {n i : Nat} (hi : i < s.fNbytes)
    (hb : byteAt s i = 0) :
    FirstSetBit.loop s (n + 1) i = FirstSetBit.loop s n (i + 1) := by
  have hld := hs.load_lt hi
  rw [FirstSetBit.loop, hld.1]
  simp only [hb, ne_eq, not_true_eq_false, if_false]

/-- An iteration of the byte loop of `FirstNullBit` at a byte other than 255
returns. -/
theorem firstNullLoop_hit {s : TBits} (hs : WF s) {n i : Nat} (hi : i < s.fNbytes)
    (hb : byteAt s i ≠ 255) :
    FirstNullBit.loop s (n + 1) i
      = some ((8 * i + lowBit false (byteAt s i)) % UINT) := by
  have hld := hs.load_lt hi
  rw [FirstNullBit.loop, hld.1]
  simp only [ne_eq, hb, not_false_eq_true, if_true]
  rw [fnull_get hld.2]

/-- An iteration of the byte loop of `FirstNullBit` at a byte 255 moves on. -/
theorem firstNullLoop_skip {s : TBits} (hs : WF s) {n i : Nat} (hi : i < s.fNbytes)
    (hb : byteAt s i = 255) :
    FirstNullBit.loop s (n + 1) i = FirstNullBit.loop s n (i + 1) := by
  have hld := hs.load_lt hi
  rw [FirstNullBit.loop, hld.1]
  simp only [hb, ne_eq, not_true_eq_false, if_false]

/-! ## Counting stored bits -/

/-- Bit `k < 8` of byte `i` is the stored bit at position `8 * i + k`. -/
theorem bitAt_byte (s : TBits) (i k : Nat) (hk : k < 8) :
    bitAt s (8 * i + k) = bitOf (byteAt s i) k := by
  unfold bitAt
  rw [show (8 * i + k) / 8 = i by omega, show (8 * i + k) % 8 = k by omega]

/-- The bit counts of `n` bytes from byte `i` on add up to the number of set
stored bits among the `8 * n` positions from `8 * i` on. -/
theorem byteSum_eq_filter (s : TBits) :
    ∀ n i, byteSum s i n
      = ((List.range (8 * n)).filter (fun p => bitAt s (8 * i + p))).length := by
  intro n
  induction n with
  | zero => intro i; rfl
  | succ n ih =>
    intro i
    rw [byteSum, ih (i + 1), show 8 * (n + 1) = 8 + 8 * n by omega, List.range_add,
      List.filter_append, List.length_append, List.filter_map, List.length_map]
    congr 1
    · unfold popc
      congr 1
      apply List.filter_congr
      intro k hk
      rw [bitAt_byte s i k (List.mem_range.mp hk)]
    · congr 1
      apply List.filter_congr
      intro p _
      show bitAt s (8 * (i + 1) + p) = bitAt s (8 * i + (8 + p))
      rw [show 8 * (i + 1) + p = 8 * i + (8 + p) by omega]

/-- Positions on which a predicate is false add nothing to a count. -/
theorem filter_range_extend (f : Nat → Bool) (a d : Nat)
    (h : ∀ p, a ≤ p → p < a + d → f p = false) :
    ((List.range (a + d)).filter f).length = ((List.range a).filter f).length := by
  rw [List.range_add, List.filter_append, List.length_append]
  have : List.filter f (List.map (fun x => a + x) (List.range d)) = [] := by
    rw [List.filter_eq_nil_iff]
    intro x hx
    rw [List.mem_map] at hx
    obtain ⟨y, hy, rfl⟩ := hx
    rw [h (a + y) (by omega) (by have := List.mem_range.mp hy; omega)]
    simp
  rw [this]; rfl

/-- With clear padding, the bit counts of all stored bytes add up to the
number of indices below `fNbits` at which `TestBitNumber` is true. -/
theorem byteSum_eq_setCount {s : TBits} (hs : WF s) (hp : Pad s) :
    byteSum s 0 s.fNbytes = setCount s 0 := by
  rw [byteSum_eq_filter]
  have hcov := hs.cover
  obtain ⟨d, hd⟩ : ∃ d, 8 * s.fNbytes = s.fNbits + d := ⟨8 * s.fNbytes - s.fNbits, by omega⟩
  rw [hd, filter_range_extend _ s.fNbits d
    (fun p h1 _ => by rw [Nat.mul_zero, Nat.zero_add]; exact hp p h1)]
  unfold setCount
  congr 1
  apply List.filter_congr
  intro i _
  rw [testBit_eq_bitAt hs hp, Nat.mul_zero, Nat.zero_add]
  cases bitAt s i <;> simp

theorem setCount_le (s : TBits) (k : Nat) : setCount s k ≤ s.fNbits := by
  unfold setCount
  exact Nat.le_trans (List.length_filter_le _ _) (by simp)

/-! ## First stored bit with a given value -/

theorem firstSet_eq_scanWith (s : TBits) (k : Nat) :
    FirstSetBit s k = scanWith s (FirstSetBit.loop s) (FirstSetBit.bitLoop s) k := rfl

theorem firstNull_eq_scanWith (s : TBits) (k : Nat) :
    FirstNullBit s k = scanWith s (FirstNullBit.loop s) (FirstNullBit.bitLoop s) k := rfl

/-- What `lowBit` computes: the first bit position of `b` below 8 with value
`v`, or 8 when there is none. -/
theorem lowBit_spec (v : Bool) (b : Nat) :
    (lowBit v b < 8 ∧ bitOf b (lowBit v b) = v ∧ ∀ k, k < lowBit v b → bitOf b k = !v) ∨
      (lowBit v b = 8 ∧ ∀ k, k < 8 → bitOf b k = !v) := by
  unfold lowBit
  cases h : (List.range 8).find? (fun k => bitOf b k == v) with
  | none =>
    right
    refine ⟨rfl, fun k hk => ?_⟩
    rw [List.find?_eq_none] at h
    have := h k (List.mem_range.mpr hk)
    revert this
    cases bitOf b k <;> cases v <;> simp
  | some r =>
    left
    rw [List.find?_range_eq_some] at h
    obtain ⟨h1, h2, h3⟩ := h
    refine ⟨List.mem_range.mp h2, by simpa using h1, fun k hk => ?_⟩
    have := h3 k hk
    revert this
    cases bitOf b k <;> cases v <;> simp

set_option maxRecDepth 100000 in
theorem lowBit_true_eight : ∀ b, b < 256 → lowBit true b = 8 → b = 0 := by decide

set_option maxRecDepth 100000 in
theorem lowBit_false_eight : ∀ b, b < 256 → lowBit false b = 8 → b = 255 := by decide

/-- The byte loop of a scan, given its three defining equations, finds the
first stored bit equal to `v` from position `8 * i` on. -/
theorem scan_loop_spec {s : TBits} (hs : WF s) (v : Bool) (loop : Nat → Nat → Option Nat)
    (h0 : ∀ i, loop 0 i = some s.fNbits)
    (hhit : ∀ n i, i < s.fNbytes → lowBit v (byteAt s i) < 8 →
      loop (n + 1) i = some ((8 * i + lowBit v (byteAt s i)) % UINT))
    (hskip : ∀ n i, i < s.fNbytes → lowBit v (byteAt s i) = 8 →
      loop (n + 1) i = loop n (i + 1)) :
    ∀ n i, i + n = s.fNbytes → ∃ r, loop n i = some r ∧ FirstStored s v (8 * i) r := by
  have hny := hs.nbytes_le
  intro n
  induction n with
  | zero =>
    intro i hi
    exact ⟨s.fNbits, h0 i, Or.inr ⟨rfl, fun p h1 h2 => by omega⟩⟩
  | succ n ih =>
    intro i hi
    have hlt : i < s.fNbytes := by omega
    rcases lowBit_spec v (byteAt s i) with ⟨hl, hv, hbelow⟩ | ⟨hl, hall⟩
    · refine ⟨8 * i + lowBit v (byteAt s i), ?_, Or.inl ⟨by omega, by omega, ?_, ?_⟩⟩
      · rw [hhit n i hlt hl]
        unfold UINT
        rw [Nat.mod_eq_of_lt (by omega)]
      · rw [bitAt_byte s i _ hl]; exact hv
      · intro p h1 h2
        obtain ⟨k, rfl⟩ : ∃ k, p = 8 * i + k := ⟨p - 8 * i, by omega⟩
        rw [bitAt_byte s i k (by omega)]
        exact hbelow k (by omega)
    · obtain ⟨r, hr, hfs⟩ := ih (i + 1) (by omega)
      have hbyte : ∀ p, 8 * i ≤ p → p < 8 * (i + 1) → bitAt s p = !v := by
        intro p h1 h2
        obtain ⟨k, rfl⟩ : ∃ k, p = 8 * i + k := ⟨p - 8 * i, by omega⟩
        rw [bitAt_byte s i k (by omega)]
        exact hall k (by omega)
      refine ⟨r, by rw [hskip n i hlt hl]; exact hr, ?_⟩
      rcases hfs with ⟨a1, a2, a3, a4⟩ | ⟨a1, a2⟩
      · refine Or.inl ⟨by omega, a2, a3, fun p h1 h2 => ?_⟩
        by_cases hp : p < 8 * (i + 1)
        · exact hbyte p h1 hp
        · exact a4 p (by omega) h2
      · refine Or.inr ⟨a1, fun p h1 h2 => ?_⟩
        by_cases hp : p < 8 * (i + 1)
        · exact hbyte p h1 hp
        · exact a2 p (by omega) h2

/-- The bit loop of a scan over byte `q`, given its three defining equations,
finds the first bit position of that byte at or above `i` with value `v`. -/
theorem scan_bitLoop_spec {s : TBits} (hs : WF s) (v : Bool) (q : Nat)
    (hq : q < s.fNbytes) (bl : Nat → Nat → Option (Option Nat))
    (b0 : ∀ i, bl 0 i = some none)
    (bhit : ∀ n i, bitOf (byteAt s q) i = v →
      bl (n + 1) i = some (some ((8 * q + i) % UINT)))
    (bskip : ∀ n i, bitOf (byteAt s q) i = (!v) → bl (n + 1) i = bl n (i + 1)) :
    ∀ n i, i + n = 8 →
      (∃ k, bl n i = some (some (8 * q + k)) ∧ i ≤ k ∧ k < 8 ∧
          bitOf (byteAt s q) k = v ∧ ∀ j, i ≤ j → j < k → bitOf (byteAt s q) j = !v) ∨
        (bl n i = some none ∧ ∀ j, i ≤ j → j < 8 → bitOf (byteAt s q) j = !v) := by
  have hny := hs.nbytes_le
  intro n
  induction n with
  | zero =>
    intro i hi
    exact Or.inr ⟨b0 i, fun j h1 h2 => by omega⟩
  | succ n ih =>
    intro i hi
    by_cases hv : bitOf (byteAt s q) i = v
    · refine Or.inl ⟨i, ?_, Nat.le_refl _, by omega, hv, fun j h1 h2 => by omega⟩
      rw [bhit n i hv]
      unfold UINT
      rw [Nat.mod_eq_of_lt (by omega)]
    · have hnv : bitOf (byteAt s q) i = !v := by
        revert hv; cases bitOf (byteAt s q) i <;> cases v <;> simp
      rw [bskip n i hnv]
      rcases ih (i + 1) (by omega) with ⟨k, a1, a2, a3, a4, a5⟩ | ⟨a1, a2⟩
      · refine Or.inl ⟨k, a1, by omega, a3, a4, fun j h1 h2 => ?_⟩
        by_cases hj : j = i
        · rw [hj]; exact hnv
        · exact a5 j (by omega) h2
      · refine Or.inr ⟨a1, fun j h1 h2 => ?_⟩
        by_cases hj : j = i
        · rw [hj]; exact hnv
        · exact a2 j (by omega) h2

/-- A scan built from a byte loop and a bit loop that satisfy their defining
equations returns `fNbits` when started at or beyond `fNbits` (and not at 0),
and otherwise the first stored bit equal to `v` from `start` on. -/
theorem scanWith_spec {s : TBits} (hs : WF s) (v : Bool)
    (loop : Nat → Nat → Option Nat) (bl : Nat → Nat → Nat → Option (Option Nat))
    (h0 : ∀ i, loop 0 i = some s.fNbits)
    (hhit : ∀ n i, i < s.fNbytes → lowBit v (byteAt s i) < 8 →
      loop (n + 1) i = some ((8 * i + lowBit v (byteAt s i)) % UINT))
    (hskip : ∀ n i, i < s.fNbytes → lowBit v (byteAt s i) = 8 →
      loop (n + 1) i = loop n (i + 1))
    (b0 : ∀ q i, bl q 0 i = some none)
    (bhit : ∀ q n i, q < s.fNbytes → bitOf (byteAt s q) i = v →
      bl q (n + 1) i = some (some ((8 * q + i) % UINT)))
    (bskip : ∀ q n i, q < s.fNbytes → bitOf (byteAt s q) i = (!v) →
      bl q (n + 1) i = bl q n (i + 1))
    (start : Nat) :
    ∃ r, scanWith s loop bl start = some r ∧
      ((start ≠ 0 ∧ s.fNbits ≤ start ∧ r = s.fNbits) ∨
        ((start = 0 ∨ start < s.fNbits) ∧ FirstStored s v start r)) := by
  have hcov := hs.cover
  have hloop := scan_loop_spec hs v loop h0 hhit hskip
  unfold scanWith
  by_cases hz : start = 0
  · obtain ⟨r, hr, hfs⟩ := hloop s.fNbytes 0 (by omega)
    refine ⟨r, by rw [if_pos hz]; exact hr, Or.inr ⟨Or.inl hz, ?_⟩⟩
    rw [hz]; exact hfs
  · rw [if_neg hz]
    by_cases hge : start ≥ s.fNbits
    · exact ⟨s.fNbits, by rw [if_pos hge], Or.inl ⟨hz, hge, rfl⟩⟩
    · rw [if_neg hge]
      have hlt : start < s.fNbits := Nat.lt_of_not_ge hge
      have hq : start / 8 < s.fNbytes := by omega
      have hsplit : start = 8 * (start / 8) + start % 8 := by omega
      by_cases hib : start % 8 ≠ 0
      · simp only [hib, ne_eq, not_false_eq_true, if_true]
        rcases scan_bitLoop_spec hs v (start / 8) hq (bl (start / 8)) (b0 _)
            (fun n i => bhit _ n i hq) (fun n i => bskip _ n i hq)
            (8 - start % 8) (start % 8) (by omega) with
          ⟨k, a1, a2, a3, a4, a5⟩ | ⟨a1, a2⟩
        · refine ⟨8 * (start / 8) + k, by rw [a1], Or.inr ⟨Or.inr hlt, Or.inl
            ⟨by omega, by omega, ?_, fun p h1 h2 => ?_⟩⟩⟩
          · rw [bitAt_byte s _ k a3]; exact a4
          · obtain ⟨j, rfl⟩ : ∃ j, p = 8 * (start / 8) + j :=
              ⟨p - 8 * (start / 8), by omega⟩
            rw [bitAt_byte s _ j (by omega)]
            exact a5 j (by omega) (by omega)
        · obtain ⟨r, hr, hfs⟩ :=
            hloop (s.fNbytes - (start / 8 + 1)) (start / 8 + 1) (by omega)
          have hbyte : ∀ p, start ≤ p → p < 8 * (start / 8 + 1) → bitAt s p = !v := by
            intro p h1 h2
            obtain ⟨j, rfl⟩ : ∃ j, p = 8 * (start / 8) + j :=
              ⟨p - 8 * (start / 8), by omega⟩
            rw [bitAt_byte s _ j (by omega)]
            exact a2 j (by omega) (by omega)
          refine ⟨r, by rw [a1]; exact hr, Or.inr ⟨Or.inr hlt, ?_⟩⟩
          rcases hfs with ⟨c1, c2, c3, c4⟩ | ⟨c1, c2⟩
          · refine Or.inl ⟨by omega, c2, c3, fun p h1 h2 => ?_⟩
            by_cases hp : p < 8 * (start / 8 + 1)
            · exact hbyte p h1 hp
            · exact c4 p (by omega) h2
          · refine Or.inr ⟨c1, fun p h1 h2 => ?_⟩
            by_cases hp : p < 8 * (start / 8 + 1)
            · exact hbyte p h1 hp
            · exact c2 p (by omega) h2
      · simp only [hib, if_false]
        obtain ⟨r, hr, hfs⟩ := hloop (s.fNbytes - start / 8) (start / 8) (by omega)
        have h8 : 8 * (start / 8) = start := by omega
        rw [h8] at hfs
        exact ⟨r, hr, Or.inr ⟨Or.inr hlt, hfs⟩⟩

theorem firstSet_bitLoop_hit {s : TBits} (hs : WF s) {q : Nat} (hq : q < s.fNbytes)
    (n i : Nat) (h : bitOf (byteAt s q) i = true) :
    FirstSetBit.bitLoop s q (n + 1) i = some (some ((8 * q + i) % UINT)) := by
  unfold bitOf at h
  rw [FirstSetBit.bitLoop, (hs.load_lt hq).1]
  simp only [decide_eq_true_eq] at h
  simp only [h, ne_eq, not_false_eq_true, if_true]

theorem firstSet_bitLoop_skip {s : TBits} (hs : WF s) {q : Nat} (hq : q < s.fNbytes)
    (n i : Nat) (h : bitOf (byteAt s q) i = false) :
    FirstSetBit.bitLoop s q (n + 1) i = FirstSetBit.bitLoop s q n (i + 1) := by
  unfold bitOf at h
  rw [FirstSetBit.bitLoop, (hs.load_lt hq).1]
  simp only [decide_eq_false_iff_not] at h
  simp only [h, if_false]

theorem firstNull_bitLoop_hit {s : TBits} (hs : WF s) {q : Nat} (hq : q < s.fNbytes)
    (n i : Nat) (h : bitOf (byteAt s q) i = false) :
    FirstNullBit.bitLoop s q (n + 1) i = some (some ((8 * q + i) % UINT)) := by
  unfold bitOf at h
  rw [FirstNullBit.bitLoop, (hs.load_lt hq).1]
  simp only [decide_eq_false_iff_not, ne_eq, not_not] at h
  simp only [h, if_true]

theorem firstNull_bitLoop_skip {s : TBits} (hs : WF s) {q : Nat} (hq : q < s.fNbytes)
    (n i : Nat) (h : bitOf (byteAt s q) i = true) :
    FirstNullBit.bitLoop s q (n + 1) i = FirstNullBit.bitLoop s q n (i + 1) := by
  unfold bitOf at h
  rw [FirstNullBit.bitLoop, (hs.load_lt hq).1]
  simp only [decide_eq_true_eq, ne_eq] at h
  simp only [h, if_false]

/-- On a consistent state `FirstSetBit` returns `fNbits` for a nonzero start
at or beyond `fNbits`, and otherwise the first stored 1 bit from `start` on
(`fNbits` when no stored bit from `start` on is 1). -/
theorem firstSet_spec {s : TBits} (hs : WF s) (start : Nat) :
    ∃ r, FirstSetBit s start = some r ∧
      ((start ≠ 0 ∧ s.fNbits ≤ start ∧ r = s.fNbits) ∨
        ((start = 0 ∨ start < s.fNbits) ∧ FirstStored s true start r)) := by
  rw [firstSet_eq_scanWith]
  refine scanWith_spec hs true _ _ (fun _ => rfl) ?_ ?_ (fun _ _ => rfl)
    (fun q n i hq h => firstSet_bitLoop_hit hs hq n i h)
    (fun q n i hq h => firstSet_bitLoop_skip hs hq n i h) start
  · intro n i hi hl
    refine firstSetLoop_hit hs hi ?_
    intro h0
    rw [h0] at hl
    exact absurd hl (by decide)
  · intro n i hi hl
    exact firstSetLoop_skip hs hi (lowBit_true_eight _ (hs.byteAt_lt i) hl)

/-- On a consistent state `FirstNullBit` returns `fNbits` for a nonzero start
at or beyond `fNbits`, and otherwise the first stored 0 bit from `start` on
(`fNbits` when no stored bit from `start` on is 0). -/
theorem firstNull_spec {s : TBits} (hs : WF s) (start : Nat) :
    ∃ r, FirstNullBit s start = some r ∧
      ((start ≠ 0 ∧ s.fNbits ≤ start ∧ r = s.fNbits) ∨
        ((start = 0 ∨ start < s.fNbits) ∧ FirstStored s false start r)) := by
  rw [firstNull_eq_scanWith]
  refine scanWith_spec hs false _ _ (fun _ => rfl) ?_ ?_ (fun _ _ => rfl)
    (fun q n i hq h => firstNull_bitLoop_hit hs hq n i h)
    (fun q n i hq h => firstNull_bitLoop_skip hs hq n i h) start
  · intro n i hi hl
    refine firstNullLoop_hit hs hi ?_
    intro h0
    rw [h0] at hl
    exact absurd hl (by decide)
  · intro n i hi hl
    exact firstNullLoop_skip hs hi (lowBit_false_eight _ (hs.byteAt_lt i) hl)

/-! ## The smallest index as the specification states it -/

theorem firstIndex_none {s : TBits} (hs : WF s) (hp : Pad s) (v : Bool) (start : Nat)
    (h : ∀ x, x < s.fNbits → start ≤ x → bitAt s x = !v) :
    firstIndex s v start = s.fNbits := by
  unfold firstIndex
  have : (List.range s.fNbits).find?
      (fun i => decide (start ≤ i) && (TestBitNumber s i == some v)) = none := by
    rw [List.find?_eq_none]
    intro x hx
    rw [testBit_eq_bitAt hs hp]
    by_cases hsx : start ≤ x
    · rw [h x (List.mem_range.mp hx) hsx]
      cases v <;> simp
    · simp [hsx]
  rw [this]; rfl

theorem firstIndex_some {s : TBits} (hs : WF s) (hp : Pad s) (v : Bool) (start r : Nat)
    (hr : r < s.fNbits) (hsr : start ≤ r) (hv : bitAt s r = v)
    (h : ∀ j, start ≤ j → j < r → bitAt s j = !v) :
    firstIndex s v start = r := by
  unfold firstIndex
  have : (List.range s.fNbits).find?
      (fun i => decide (start ≤ i) && (TestBitNumber s i == some v)) = some r := by
    rw [List.find?_range_eq_some]
    refine ⟨?_, List.mem_range.mpr hr, fun j hj => ?_⟩
    · rw [testBit_eq_bitAt hs hp, hv]; simp [hsr]
    · rw [testBit_eq_bitAt hs hp]
      by_cases hsj : start ≤ j
      · rw [h j hsj hj]
        cases v <;> simp
      · simp [hsj]
  rw [this]; rfl

/-- With clear padding the value `FirstSetBit` returns is the smallest index
in `[start, fNbits)` that tests true, or `fNbits`. -/
theorem firstIndex_true_of_stored {s : TBits} (hs : WF s) (hp : Pad s) (start r : Nat)
    (h : (start ≠ 0 ∧ s.fNbits ≤ start ∧ r = s.fNbits) ∨
      ((start = 0 ∨ start < s.fNbits) ∧ FirstStored s true start r)) :
    firstIndex s true start = r := by
  have hcov := hs.cover
  rcases h with ⟨_, h2, h3⟩ | ⟨_, ⟨a1, a2, a3, a4⟩ | ⟨a1, a2⟩⟩
  · rw [h3]; exact firstIndex_none hs hp true start (fun x h1 h2 => by omega)
  · have hr : r < s.fNbits := by
      by_contra hge
      rw [hp r (Nat.le_of_not_lt hge)] at a3
      exact absurd a3 (by decide)
    exact firstIndex_some hs hp true start r hr a1 a3 a4
  · rw [a1]
    exact firstIndex_none hs hp true start (fun x h1 h2 => a2 x h2 (by omega))

/-- With clear padding the value `FirstNullBit` returns is the smallest index
in `[start, fNbits)` that tests false, or `fNbits`. -/
theorem firstIndex_false_of_stored {s : TBits} (hs : WF s) (hp : Pad s) (start r : Nat)
    (h : (start ≠ 0 ∧ s.fNbits ≤ start ∧ r = s.fNbits) ∨
      ((start = 0 ∨ start < s.fNbits) ∧ FirstStored s false start r)) :
    firstIndex s false start = r := by
  have hcov := hs.cover
  rcases h with ⟨_, h2, h3⟩ | ⟨hst, ⟨a1, a2, a3, a4⟩ | ⟨a1, a2⟩⟩
  · rw [h3]; exact firstIndex_none hs hp false start (fun x h1 h2 => by omega)
  · by_cases hr : r < s.fNbits
    · exact firstIndex_some hs hp false start r hr a1 a3 a4
    · have hle : start ≤ s.fNbits := by omega
      have hreq : r = s.fNbits := by
        by_contra hne
        have h1 := a4 s.fNbits hle (by omega)
        rw [hp s.fNbits (Nat.le_refl _)] at h1
        exact absurd h1 (by decide)
      rw [hreq]
      exact firstIndex_none hs hp false start (fun x h1 h2 => a4 x h2 (by omega))
  · rw [a1]
    exact firstIndex_none hs hp false start (fun x h1 h2 => a2 x h2 (by omega))

/-! ## Stored bytes of two consistent states -/

theorem load_eq_of_byteAt {t s : TBits} (ht : WF t) (hs : WF s) {q : Nat}
    (hqt : q < t.fNbytes) (hqs : q < s.fNbytes) (h : byteAt t q = byteAt s q) :
    t.load q = s.load q := by
  rw [(ht.load_lt hqt).1, (hs.load_lt hqs).1, h]

theorem load_eq_of_same_size {t r : TBits} (ht : WF t) (hr : WF r)
    (hn : t.fNbytes = r.fNbytes) {q : Nat} (h : byteAt t q = byteAt r q) :
    t.load q = r.load q := by
  by_cases hq : q < t.fNbytes
  · exact load_eq_of_byteAt ht hr hq (by omega) h
  · rw [(ht.load_ge (by omega)).1, (hr.load_ge (by omega)).1]

theorem load_of_buf {s : TBits} {buf : List Nat} (h : s.fAllBits = some buf) (q : Nat) :
    s.load q = buf[q]? := by
  unfold load; rw [h]

/-- A consistent state whose bytes agree with the first bytes of another one
holds exactly that leading part of the other buffer. -/
theorem buffer_eq_take {t s : TBits} (ht : WF t) (hs : WF s)
    (hle : t.fNbytes ≤ s.fNbytes) (hpos : 0 < t.fNbytes)
    (hby : ∀ q, q < t.fNbytes → byteAt t q = byteAt s q) {buf : List Nat}
    (hb : s.fAllBits = some buf) : t.fAllBits = some (buf.take t.fNbytes) := by
  cases htb : t.fAllBits with
  | none => have := ht.null htb; omega
  | some tbuf =>
    have hlen : tbuf.length = t.fNbytes := ht.len tbuf htb
    congr 1
    apply List.ext_getElem?
    intro q
    rw [List.getElem?_take]
    by_cases hq : q < t.fNbytes
    · rw [if_pos hq, ← load_of_buf htb, ← load_of_buf hb]
      exact load_eq_of_byteAt ht hs hq (by omega) (hby q hq)
    · rw [if_neg hq]
      exact List.getElem?_eq_none (by omega)

/-! ## The loop over the byte holding `startBit` in `CountBits` -/

theorem byteSum_le (s : TBits) : ∀ n i, byteSum s i n ≤ 8 * n := by
  intro n
  induction n with
  | zero => intro i; exact Nat.le_refl _
  | succ n ih =>
    intro i
    have h1 := popc_le (byteAt s i)
    have h2 := ih (i + 1)
    simp only [byteSum]
    omega

/-- On a consistent state the bit loop of `CountBits` adds its number of
iterations when bit `ibit` of the byte is set, and nothing otherwise. -/
theorem countBitLoop_eq {s : TBits} (hs : WF s) {q : Nat} (hq : q < s.fNbytes)
    (ib : Nat) :
    ∀ n i c, c + n < UINT →
      CountBits.bitLoop s q ib n i c
        = some (c + (if bitOf (byteAt s q) ib = true then n else 0)) := by
  intro n
  induction n with
  | zero =>
    intro i c _
    simp [CountBits.bitLoop]
  | succ n ih =>
    intro i c hc
    rw [CountBits.bitLoop, (hs.load_lt hq).1]
    simp only []
    by_cases hb : bitOf (byteAt s q) ib = true
    · have hb2 : byteAt s q &&& (1 <<< ib) ≠ 0 := by
        unfold bitOf at hb; simpa using hb
      have hc1 : (c + 1) % UINT = c + 1 := Nat.mod_eq_of_lt (by omega)
      rw [if_pos hb2, hc1, ih (i + 1) (c + 1) (by omega), if_pos hb, if_pos hb]
      congr 1; omega
    · have hb2 : ¬ byteAt s q &&& (1 <<< ib) ≠ 0 := by
        unfold bitOf at hb; simpa using hb
      rw [if_neg hb2, ih (i + 1) c (by omega), if_neg hb, if_neg hb]

theorem WF.buf_of_pos {s : TBits} (hs : WF s) (h : 0 < s.fNbytes) :
    ∃ buf, s.fAllBits = some buf ∧ buf.length = s.fNbytes := by
  cases hb : s.fAllBits with
  | none => have := hs.null hb; omega
  | some buf => exact ⟨buf, rfl, hs.len buf hb⟩

/-! ## Byte sums of two states and counts from a start index -/

theorem byteSum_congr {t s : TBits} (h : ∀ q, byteAt t q = byteAt s q) :
    ∀ n i, byteSum t i n = byteSum s i n := by
  intro n
  induction n with
  | zero => intro i; rfl
  | succ n ih => intro i; simp only [byteSum, h i, ih (i + 1)]

theorem byteSum_split (s : TBits) (d : Nat) :
    ∀ n i, byteSum s i (n + d) = byteSum s i n + byteSum s (i + n) d := by
  intro n
  induction n with
  | zero => intro i; simp [byteSum]
  | succ n ih =>
    intro i
    rw [show n + 1 + d = (n + d) + 1 by omega, byteSum, byteSum, ih (i + 1),
      show i + 1 + n = i + (n + 1) by omega]
    omega

/-- Dropping trailing zero bytes does not change the sum of the bit counts. -/
theorem byteSum_of_dropped {t s : TBits} (ht : WF t)
    (hle : t.fNbytes ≤ s.fNbytes) (hby : ∀ q, byteAt t q = byteAt s q) :
    byteSum t 0 t.fNbytes = byteSum s 0 s.fNbytes := by
  obtain ⟨d, hd⟩ : ∃ d, s.fNbytes = t.fNbytes + d := ⟨s.fNbytes - t.fNbytes, by omega⟩
  rw [hd, byteSum_split, byteSum_congr hby]
  have hz : byteSum s (0 + t.fNbytes) d = 0 := by
    apply byteSum_zero
    intro q h1 _
    rw [← hby q]
    exact (ht.load_ge (by omega)).2
  rw [hz, Nat.add_zero]

/-- With clear padding, the number of indices in `[k, fNbits)` that test true
is the number of set stored bits among the positions from `k` up to any
bound at or beyond `fNbits`. -/
theorem setCount_eq_filter {s : TBits} (hs : WF s) (hp : Pad s) (k d : Nat)
    (hd : s.fNbits ≤ k + d) :
    setCount s k = ((List.range d).filter (fun p => bitAt s (k + p))).length := by
  unfold setCount
  by_cases hk : k ≤ s.fNbits
  · obtain ⟨e, he⟩ : ∃ e, s.fNbits = k + e := ⟨s.fNbits - k, by omega⟩
    obtain ⟨c, hc⟩ : ∃ c, d = e + c := ⟨d - e, by omega⟩
    rw [hc, filter_range_extend _ e c (fun p h1 _ => hp (k + p) (by omega)), he,
      List.range_add, List.filter_append, List.length_append, List.filter_map,
      List.length_map]
    have hnil : List.filter
        (fun i => decide (k ≤ i) && (TestBitNumber s i == some true)) (List.range k)
        = [] := by
      rw [List.filter_eq_nil_iff]
      intro a ha
      have := List.mem_range.mp ha
      simp; omega
    rw [hnil, List.length_nil, Nat.zero_add]
    congr 1
    apply List.filter_congr
    intro p _
    show (decide (k ≤ k + p) && (TestBitNumber s (k + p) == some true)) = bitAt s (k + p)
    rw [testBit_eq_bitAt hs hp]
    cases bitAt s (k + p) <;> simp
  · have h1 : List.filter
        (fun i => decide (k ≤ i) && (TestBitNumber s i == some true))
        (List.range s.fNbits) = [] := by
      rw [List.filter_eq_nil_iff]
      intro a ha
      have := List.mem_range.mp ha
      simp; omega
    have h2 : List.filter (fun p => bitAt s (k + p)) (List.range d) = [] := by
      rw [List.filter_eq_nil_iff]
      intro a _
      rw [hp (k + a) (by omega)]
      simp
    rw [h1, h2]

/-! ## Claims -/

/-- Supporting result for C1: from every reachable state, for every bit number `i`
whose successor does not wrap, `SetBitNumber(i, true)` returns, after it
`TestBitNumber(i)` is true and `fNbits ≥ i + 1`. -/
theorem setBit_then_testBit {s : TBits} (hs : Reachable s) {i : Nat} (hi : i < UINT - 1) :
    ∃ t, SetBitNumber s i true = some t ∧ TestBitNumber t i = some true ∧
      t.fNbits ≥ i + 1 := by
  have hi2 : i < UINT := by unfold UINT at hi ⊢; omega
  have hmod : (i + 1) % UINT = i + 1 := by
    unfold UINT at hi ⊢; exact Nat.mod_eq_of_lt (by omega)
  obtain ⟨t, ht, hwf, hnb, _, hbits⟩ := setBit_bits hs.wf hi2 true
  have hge : t.fNbits ≥ i + 1 := by
    rw [hnb, hmod]; split <;> omega
  refine ⟨t, ht, ?_, hge⟩
  rw [hwf.testBit_eq, hbits]
  have : i < t.fNbits := by omega
  simp [this]

/-- C1: at bit number 4294967295 the assignment `fNbits = bitnumber+1` wraps to
0.  On the vector `TBits(8)`, `SetBitNumber(4294967295, true)` returns with
`fNbits = 0`, so `TestBitNumber(4294967295)` is false afterwards and `fNbits` is
not at least `4294967295 + 1`. -/
theorem C1_setBit_max_wraps :
    ∃ t, SetBitNumber (ctor 8) 4294967295 true = some t ∧ t.fNbits = 0 ∧
      TestBitNumber t 4294967295 = some false ∧ ¬ t.fNbits ≥ 4294967295 + 1 := by
  obtain ⟨t, ht, hwf, hnb, _, _⟩ :=
    setBit_bits (ctor_wf 8 (by decide)) (i := 4294967295) (by decide) true
  have h0 : t.fNbits = 0 := by
    rw [hnb]; decide
  refine ⟨t, ht, h0, ?_, by rw [h0]; decide⟩
  rw [hwf.testBit_eq, h0]; rfl

/-- Supporting result for C2: from every state reachable without wrap-around,
`SetBitNumber(i, v)` with `i + 1` not wrapping returns, and afterwards
`TestBitNumber(j)` is `v` for `j = i` and what it was before for `j ≠ i`. -/
theorem setBit_point_update {s : TBits} (hs : ReachableNoWrap s) {i : Nat}
    (hi : i < UINT - 1) (v : Bool) :
    ∃ t, SetBitNumber s i v = some t ∧
      ∀ j, TestBitNumber t j = if j = i then some v else TestBitNumber s j := by
  have hi2 : i < UINT := by unfold UINT at hi ⊢; omega
  obtain ⟨t, ht, hwf, _, _, hbits⟩ := setBit_bits hs.consistent hi2 v
  refine ⟨t, ht, fun j => ?_⟩
  rw [testBit_eq_bitAt hwf (setBit_pad hs.consistent hs.pad hi ht), hbits,
    testBit_eq_bitAt hs.consistent hs.pad]
  split <;> rfl

/-- C2: `TBits(8)` with `SetBitNumber(0, true)` is the state with `fNbits = 8`
and the single byte 1.  After `SetBitNumber(4294967295, false)` the reachable
state `s2` has `fNbits` wrapped to 0, so `TestBitNumber(0)` is false.  The call
`SetBitNumber(1, false)`, whose `bitnumber + 1` does not wrap, then raises
`fNbits` to 2 and `TestBitNumber(0)` becomes true although bit 0 is not the
bit written. -/
theorem C2_setBit_after_wrap_uncovers_bit :
    SetBitNumber (ctor 8) 0 true = some ⟨8, 1, some [1]⟩ ∧
      ∃ s2 s3, SetBitNumber ⟨8, 1, some [1]⟩ 4294967295 false = some s2 ∧
        Reachable s2 ∧ TestBitNumber s2 0 = some false ∧
        SetBitNumber s2 1 false = some s3 ∧ TestBitNumber s3 0 = some true := by
  have h1 : SetBitNumber (ctor 8) 0 true = some ⟨8, 1, some [1]⟩ := by decide
  have hr : Reachable ⟨8, 1, some [1]⟩ :=
    Reach.setBit 0 true (Reach.ctor 8 (by decide)) (by decide) h1
  obtain ⟨s2, h2, w2, n2, _, b2⟩ := setBit_bits hr.wf (i := 4294967295) (by decide) false
  obtain ⟨s3, h3, w3, n3, _, b3⟩ := setBit_bits w2 (i := 1) (by decide) false
  have hs2 : s2.fNbits = 0 := by
    rw [n2]; decide
  have hs3 : s3.fNbits = 2 := by
    rw [n3, hs2]; decide
  refine ⟨h1, s2, s3, h2, Reach.setBit 4294967295 false hr (by decide) h2, ?_, h3, ?_⟩
  · rw [w2.testBit_eq, hs2]; rfl
  · rw [w3.testBit_eq, hs3, b3, b2]; decide

/-- Supporting result for C3: on every vector reachable without wrap-around,
`CountBits(0)` returns the number of indices `i` in `[0, fNbits)` for which
`TestBitNumber(i)` is true. -/
theorem countBits_zero_exact {s : TBits} (hs : ReachableNoWrap s) :
    CountBits s 0 = some (setCount s 0) := by
  have hwf := hs.consistent
  unfold CountBits
  rw [if_pos rfl, countLoop_eq hwf s.fNbytes 0 0 (by omega) (by decide), Nat.zero_add,
    byteSum_eq_setCount hwf hs.pad]
  have h1 := setCount_le s 0
  have h2 := hwf.nbits_lt
  rw [Nat.mod_eq_of_lt (by omega)]

/-- C3: on the vector `TBits(8)` after `SetBitNumber(4294967295, true)`, whose
`fNbits` wrapped to 0, `CountBits(0)` returns 1 while no index in
`[0, fNbits)` tests true. -/
theorem C3_countBits_after_wrap :
    ∃ t, SetBitNumber (ctor 8) 4294967295 true = some t ∧ Reachable t ∧ t.fNbits = 0 ∧
      CountBits t 0 = some 1 ∧ setCount t 0 = 0 := by
  obtain ⟨t, ht, hwf, hnb, hny, hby⟩ :=
    setBit_bytes (ctor_wf 8 (by decide)) (i := 4294967295) (by decide) true
  have h0 : t.fNbits = 0 := by
    rw [hnb]; decide
  have hn : t.fNbytes = 536870912 := by
    rw [hny]; decide
  have hlast : byteAt t 536870911 = 128 := by
    rw [hby, ctor_byteAt]; decide
  have hother : ∀ q, q ≠ 536870911 → byteAt t q = 0 := by
    intro q hq
    rw [hby]
    simp [hq, ctor_byteAt]
  have hsum : byteSum t 0 536870912 = 1 := by
    rw [byteSum_single t 536870911 536870912 0 (by omega) (by omega)
      (fun q _ _ hq => hother q hq), hlast]
    decide
  refine ⟨t, ht, Reach.setBit 4294967295 true (Reach.ctor 8 (by decide)) (by decide) ht,
    h0, ?_, ?_⟩
  · unfold CountBits
    rw [if_pos rfl, hn, countLoop_eq hwf 536870912 0 0 (by omega) (by decide), hsum]
    rfl
  · simp [setCount, h0]

/-- C4: on `TBits(0)` after `SetBitNumber(6, true)` (the state with `fNbits = 7`
and the single byte 64) `CountBits(6)` returns 2: the loop over the byte
holding `startBit` tests bit `ibit = 6` in both of its iterations.  Only one
index in `[6, 7)` tests true. -/
theorem C4_countBits_start_6 :
    SetBitNumber (ctor 0) 6 true = some ⟨7, 1, some [64]⟩ ∧
      CountBits ⟨7, 1, some [64]⟩ 6 = some 2 ∧
      setCount ⟨7, 1, some [64]⟩ 6 = 1 := by
  refine ⟨by decide, by decide, by decide⟩

/-- Supporting result for C5: on every vector reachable without wrap-around and for
every `startBit`, `FirstSetBit(startBit)` returns the smallest index `i` with
`startBit ≤ i < fNbits` that tests true, and `fNbits` when there is none. -/
theorem firstSetBit_exact {s : TBits} (hs : ReachableNoWrap s) (startBit : Nat) :
    FirstSetBit s startBit = some (firstIndex s true startBit) := by
  obtain ⟨r, hr, hcase⟩ := firstSet_spec hs.consistent startBit
  rw [hr, firstIndex_true_of_stored hs.consistent hs.pad startBit r hcase]

/-- C5: `TBits(8)` with `SetBitNumber(1, true)` is the state with `fNbits = 8`
and the single byte 2.  After `SetBitNumber(4294967295, false)` its `fNbits`
has wrapped to 0, and `FirstSetBit(0)` returns 1 although no index in
`[0, fNbits)` exists, where `fNbits = 0` is the value to return. -/
theorem C5_firstSetBit_after_wrap :
    SetBitNumber (ctor 8) 1 true = some ⟨8, 1, some [2]⟩ ∧
      ∃ t, SetBitNumber ⟨8, 1, some [2]⟩ 4294967295 false = some t ∧ Reachable t ∧
        t.fNbits = 0 ∧
        FirstSetBit t 0 = some 1 ∧ firstIndex t true 0 = 0 := by
  have hr : Reachable ⟨8, 1, some [2]⟩ :=
    Reach.setBit 1 true (Reach.ctor 8 (by decide)) (by decide) (by decide)
  obtain ⟨t, ht, hwf, hnb, hny, hby⟩ :=
    setBit_bytes hr.wf (i := 4294967295) (by decide) false
  have h0 : t.fNbits = 0 := by
    rw [hnb]; decide
  have hn : t.fNbytes = 536870911 + 1 := by
    rw [hny]; decide
  have hb0 : byteAt t 0 = 2 := by
    rw [hby]; decide
  refine ⟨by decide, t, ht, Reach.setBit 4294967295 false hr (by decide) ht, h0, ?_,
    by simp [firstIndex, h0]⟩
  unfold FirstSetBit
  rw [if_pos rfl, hn, firstSetLoop_hit hwf (by omega) (by rw [hb0]; decide), hb0]
  decide

/-- Supporting result for C6: on every vector reachable without wrap-around and for
every `startBit`, `FirstNullBit(startBit)` returns the smallest index `i` with
`startBit ≤ i < fNbits` that tests false, and `fNbits` when there is none. -/
theorem firstNullBit_exact {s : TBits} (hs : ReachableNoWrap s) (startBit : Nat) :
    FirstNullBit s startBit = some (firstIndex s false startBit) := by
  obtain ⟨r, hr, hcase⟩ := firstNull_spec hs.consistent startBit
  rw [hr, firstIndex_false_of_stored hs.consistent hs.pad startBit r hcase]

/-- C6: `TBits(8)` with `SetBitNumber(0, true)` is the state with `fNbits = 8`
and the single byte 1.  After `SetBitNumber(4294967295, false)` its `fNbits`
has wrapped to 0, and `FirstNullBit(0)` returns 1 although no index in
`[0, fNbits)` exists, where `fNbits = 0` is the value to return. -/
theorem C6_firstNullBit_after_wrap :
    SetBitNumber (ctor 8) 0 true = some ⟨8, 1, some [1]⟩ ∧
      ∃ t, SetBitNumber ⟨8, 1, some [1]⟩ 4294967295 false = some t ∧ Reachable t ∧
        t.fNbits = 0 ∧
        FirstNullBit t 0 = some 1 ∧ firstIndex t false 0 = 0 := by
  have hr : Reachable ⟨8, 1, some [1]⟩ :=
    Reach.setBit 0 true (Reach.ctor 8 (by decide)) (by decide) (by decide)
  obtain ⟨t, ht, hwf, hnb, hny, hby⟩ :=
    setBit_bytes hr.wf (i := 4294967295) (by decide) false
  have h0 : t.fNbits = 0 := by
    rw [hnb]; decide
  have hn : t.fNbytes = 536870911 + 1 := by
    rw [hny]; decide
  have hb0 : byteAt t 0 = 1 := by
    rw [hby]; decide
  refine ⟨by decide, t, ht, Reach.setBit 4294967295 false hr (by decide) ht, h0, ?_,
    by simp [firstIndex, h0]⟩
  unfold FirstNullBit
  rw [if_pos rfl, hn, firstNullLoop_hit hwf (by omega) (by rw [hb0]; decide), hb0]
  decide

/-- C7 (counterexample): `TBits(0)` does not have `fNbits = 8`. -/
theorem C7_ctor_zero_nbits_ne_8 : ¬ (ctor 0).fNbits = 8 := by decide

/-- C7 (amended): `TBits(0)` allocates one zero byte but keeps `fNbits = 0`:
`fNbits = 0`, `fNbytes = 1`, the buffer is the single byte 0, and
`TestBitNumber` is false at every index. -/
theorem C7_ctor_zero :
    (ctor 0).fNbits = 0 ∧ (ctor 0).fNbytes = 1 ∧ (ctor 0).fAllBits = some [0] ∧
      ∀ i, TestBitNumber (ctor 0) i = some false := by
  refine ⟨rfl, rfl, rfl, fun i => ?_⟩
  simp [TestBitNumber, ctor]

/-- C8 (counterexample): `TBits(0)` followed by `SetBitNumber(2, true)` gives
a reachable, non-empty vector with `fNbits = 3`, `fNbytes = 1`.  `Compact`
returns it unchanged: afterwards `fNbits` is 3, not `8 * fNbytes`, and
`TestBitNumber(2)` is true, `TestBitNumber(5)` false. -/
theorem C8_compact_keeps_nbits :
    SetBitNumber (ctor 0) 2 true = some ⟨3, 1, some [4]⟩ ∧
      Reachable ⟨3, 1, some [4]⟩ ∧
      ∃ t, Compact ⟨3, 1, some [4]⟩ = some t ∧ t.fNbits = 3 ∧ t.fNbytes = 1 ∧
        ¬ t.fNbits = 8 * t.fNbytes ∧
        TestBitNumber t 2 = some true ∧ TestBitNumber t 5 = some false :=
  ⟨by decide, Reach.setBit 2 true (Reach.ctor 0 (by decide)) (by decide) (by decide),
    ⟨3, 1, some [4]⟩, by decide, rfl, rfl, by decide, by decide, by decide⟩

/-- C8 (amended): on every reachable vector with `fNbits ≠ 0`, `Compact`
returns; when the last byte is zero and is not the only byte, the byte count
decreases and `fNbits = 8 * fNbytes` afterwards; otherwise the vector, and so
its `fNbits`, is unchanged. -/
theorem C8_compact_size {s : TBits} (hs : Reachable s) (hne : s.fNbits ≠ 0) :
    ∃ t, Compact s = some t ∧
      (if s.fNbytes ≠ 1 ∧ byteAt s (s.fNbytes - 1) = 0
        then t.fNbytes < s.fNbytes ∧ t.fNbits = 8 * t.fNbytes
        else t = s) := by
  have hwf := hs.wf
  obtain ⟨t, ht, hwt, hcase⟩ := compact_spec hwf
  refine ⟨t, ht, ?_⟩
  rcases hcase with ⟨heq, hwhy⟩ | ⟨_, hpos, hlt, hnb, hby, _⟩
  · have hnull : s.fAllBits ≠ none := by
      intro h
      have := hwf.null h
      have := hwf.cover
      omega
    have hcond : ¬ (s.fNbytes ≠ 1 ∧ byteAt s (s.fNbytes - 1) = 0) := by
      rintro ⟨h1, h2⟩
      rcases hwhy with h | h | h | h
      · exact hne h
      · exact hnull h
      · exact h1 h
      · exact h h2
    rw [if_neg hcond]; exact heq
  · have hz : byteAt s (s.fNbytes - 1) = 0 := by
      rw [← hby]; exact (hwt.load_ge (by omega)).2
    have hcond : s.fNbytes ≠ 1 ∧ byteAt s (s.fNbytes - 1) = 0 := ⟨by omega, hz⟩
    rw [if_pos hcond]
    exact ⟨hlt, hnb⟩

/-- C8 (witness): the amended statement at the reachable vector `TBits(16)`
after `SetBitNumber(2, true)`, whose second byte is dropped. -/
theorem C8_compact_size_witness :
    Reachable ⟨16, 2, some [4, 0]⟩ ∧ (16 : Nat) ≠ 0 ∧
      ∃ t, Compact ⟨16, 2, some [4, 0]⟩ = some t ∧
        (if (2 : Nat) ≠ 1 ∧ byteAt ⟨16, 2, some [4, 0]⟩ (2 - 1) = 0
          then t.fNbytes < 2 ∧ t.fNbits = 8 * t.fNbytes
          else t = ⟨16, 2, some [4, 0]⟩) :=
  ⟨Reach.setBit 2 true (Reach.ctor 16 (by decide)) (by decide) (by decide), by decide,
    C8_compact_size (s := ⟨16, 2, some [4, 0]⟩)
      (Reach.setBit 2 true (Reach.ctor 16 (by decide)) (by decide) (by decide))
      (by decide)⟩

/-- C9 (counterexample): `TBits(0)` is reachable and has `fNbits = 0` with
`fNbytes = 1`, which is not `ceil(0 / 8) = 0`. -/
theorem C9_ctor_zero_nbytes :
    Reachable (ctor 0) ∧ (ctor 0).fNbits = 0 ∧ (ctor 0).fNbytes = 1 ∧
      ¬ (ctor 0).fNbytes = ((ctor 0).fNbits + 7) / 8 :=
  ⟨Reach.ctor 0 (by decide), rfl, rfl, by decide⟩

/-- C9 (amended): in every state reachable from the constructor by
`SetBitNumber` calls whose `bitnumber + 1` does not wrap, `ResetAllBits`,
`Compact`, `Clear`, copy and assignment, `fNbytes = ceil(fNbits / 8)`, or
`fNbits = 0` with `fNbytes = 1` (the state `TBits(0)` produces). -/
theorem C9_nbytes_invariant {s : TBits} (hs : ReachableNoWrap s) :
    s.fNbytes = (s.fNbits + 7) / 8 ∨ (s.fNbits = 0 ∧ s.fNbytes = 1) := by
  unfold ReachableNoWrap at hs
  induction hs with
  | ctor n hn =>
    have h1 := ctor_nbytes n hn
    have h2 : (ctor n).fNbits = n := rfl
    rw [h1, h2]
    by_cases h0 : n = 0
    · right; simp [h0]
    · left; simp only [h0, if_false]; omega
  | copyCtor hs ht ih =>
    obtain ⟨t, h1, _, hsame⟩ := copyCtor_spec (ReachableNoWrap.consistent hs)
    rw [h1] at ht; cases ht
    rw [hsame.1, hsame.2.1]; exact ih
  | assign same hs hr ht ih1 ih2 =>
    obtain ⟨t, h1, _, hsame⟩ :=
      assign_spec (ReachableNoWrap.consistent hs) (ReachableNoWrap.consistent hr) same
    rw [h1] at ht; cases ht
    rcases hsame with hsame | hsame
    · rw [hsame.1, hsame.2.1]; exact ih1
    · rw [hsame.1, hsame.2.1]; exact ih2
  | clear _ _ => left; simp [Clear]
  | compact hs ht ih =>
    obtain ⟨t, h1, _, hcase⟩ := compact_spec (ReachableNoWrap.consistent hs)
    rw [h1] at ht; cases ht
    rcases hcase with ⟨heq, _⟩ | ⟨_, _, _, hnb, _, _⟩
    · rw [heq]; exact ih
    · left; omega
  | reset hs ht ih =>
    obtain ⟨t, h1, _, hnb, hny, _⟩ := reset_spec (ReachableNoWrap.consistent hs)
    rw [h1] at ht; cases ht
    rw [hnb, hny]; exact ih
  | @setBit s0 _ i v hs hi ht ih =>
    have hi2 : i < UINT := by unfold UINT at hi ⊢; omega
    have hmod : (i + 1) % UINT = i + 1 := by
      unfold UINT at hi ⊢; exact Nat.mod_eq_of_lt (by omega)
    obtain ⟨t, h1, _, hnb, hny, _⟩ := setBit_bits (ReachableNoWrap.consistent hs) hi2 v
    rw [h1] at ht; cases ht
    rw [hnb, hny]
    by_cases hge : s0.fNbits ≤ i
    · simp only [hge, if_true, hmod]
      left
      rw [Nat.max_def]
      split <;> omega
    · simp only [hge, if_false]; exact ih

/-- C9 (witness): the amended invariant at `TBits(0)` after
`SetBitNumber(10, true)`. -/
theorem C9_nbytes_invariant_witness :
    ReachableNoWrap ⟨11, 2, some [0, 4]⟩ ∧
      ((2 : Nat) = (11 + 7) / 8 ∨ ((11 : Nat) = 0 ∧ (2 : Nat) = 1)) :=
  ⟨Reach.setBit 10 true (Reach.ctor 0 (by decide)) (by decide) (by decide),
    C9_nbytes_invariant (s := ⟨11, 2, some [0, 4]⟩)
      (Reach.setBit 10 true (Reach.ctor 0 (by decide)) (by decide) (by decide))⟩

/-- C10: in every state reachable from the constructor by `SetBitNumber` calls
whose `bitnumber + 1` does not wrap, `ResetAllBits`, `Compact`, `Clear`, copy
and assignment, every stored bit at a position `p` with
`fNbits ≤ p < 8 * fNbytes` exists in the buffer and is 0. -/
theorem C10_padding_clear {s : TBits} (hs : ReachableNoWrap s) (p : Nat)
    (hlo : s.fNbits ≤ p) (hhi : p < 8 * s.fNbytes) : storedBit s p = some false := by
  have hq : p / 8 < s.fNbytes := by omega
  have hpad := hs.pad p hlo
  unfold bitAt at hpad
  unfold storedBit
  rw [(hs.consistent.load_lt hq).1]
  simp [hpad]

/-- C10 (witness): bit 13 of `TBits(0)` after `SetBitNumber(10, true)` is a
padding bit and reads 0. -/
theorem C10_padding_clear_witness :
    ReachableNoWrap ⟨11, 2, some [0, 4]⟩ ∧ (11 : Nat) ≤ 13 ∧ 13 < 8 * 2 ∧
      storedBit ⟨11, 2, some [0, 4]⟩ 13 = some false :=
  ⟨Reach.setBit 10 true (Reach.ctor 0 (by decide)) (by decide) (by decide),
    by decide, by decide,
    C10_padding_clear (s := ⟨11, 2, some [0, 4]⟩)
      (Reach.setBit 10 true (Reach.ctor 0 (by decide)) (by decide) (by decide))
      13 (by decide) (by decide)⟩

/-- C11: `Compact` is idempotent.  On every reachable vector `Compact` returns
a state `t`, and `Compact` on `t` returns `t` again: the same `fNbytes`, the
same `fNbits` and the same buffer. -/
theorem C11_compact_idempotent {s : TBits} (hs : Reachable s) :
    ∃ t, Compact s = some t ∧ Compact t = some t := by
  obtain ⟨t, ht, hwt, hcase⟩ := compact_spec hs.wf
  refine ⟨t, ht, ?_⟩
  rcases hcase with ⟨heq, _⟩ | ⟨_, _, _, _, hby, hlast⟩
  · rw [heq] at ht ⊢; exact ht
  · obtain ⟨u, hu, hwu, hcase2⟩ := compact_spec hwt
    rcases hcase2 with ⟨heq2, _⟩ | ⟨_, hpos, hlt, _, hby2, _⟩
    · rw [heq2] at hu; exact hu
    · exfalso
      have hz : byteAt s (t.fNbytes - 1) = 0 := by
        rw [← hby, ← hby2]; exact (hwu.load_ge (by omega)).2
      rcases hlast with h | h
      · omega
      · exact h hz

/-- C11 (witness): idempotence at `TBits(16)` after `SetBitNumber(2, true)`,
where the first `Compact` drops a byte. -/
theorem C11_compact_idempotent_witness :
    Reachable ⟨16, 2, some [4, 0]⟩ ∧
      ∃ t, Compact ⟨16, 2, some [4, 0]⟩ = some t ∧ Compact t = some t :=
  ⟨Reach.setBit 2 true (Reach.ctor 16 (by decide)) (by decide) (by decide),
    C11_compact_idempotent (s := ⟨16, 2, some [4, 0]⟩)
      (Reach.setBit 2 true (Reach.ctor 16 (by decide)) (by decide) (by decide))⟩

/-- C13: in every state, reachable or not, `TestBitNumber(i)` returns false for
every `i ≥ fNbits`.  The member is `const`: its embedding maps the state to
the result and produces no new state, so the vector is unchanged. -/
theorem C13_testBit_out_of_range (s : TBits) (i : Nat) (h : s.fNbits ≤ i) :
    TestBitNumber s i = some false := by
  unfold TestBitNumber
  rw [if_pos h]

/-- C13 (witness): index 5 on the state with `fNbits = 3` and the byte 255,
whose stored bit 5 is 1. -/
theorem C13_testBit_out_of_range_witness :
    (3 : Nat) ≤ 5 ∧ TestBitNumber ⟨3, 1, some [255]⟩ 5 = some false :=
  ⟨by decide, C13_testBit_out_of_range ⟨3, 1, some [255]⟩ 5 (by decide)⟩

/-- C14: for every vector, after `Clear` `fNbits = 0`, `fNbytes = 0`, there is
no buffer, `TestBitNumber(i)` returns false for every `i`, and `Clear` on the
cleared vector gives the same state. -/
theorem C14_clear (s : TBits) :
    (Clear s).fNbits = 0 ∧ (Clear s).fNbytes = 0 ∧ (Clear s).fAllBits = none ∧
      (∀ i, TestBitNumber (Clear s) i = some false) ∧ Clear (Clear s) = Clear s :=
  ⟨rfl, rfl, rfl, fun i => by simp [TestBitNumber, Clear], rfl⟩

/-- C12: size effect of `SetBitNumber` on a reachable vector, for a bit number
`i` with `i + 1` not wrapping.  The call returns.  If `i ≥ fNbits`, the state
`r` after the resizing part (before the bit is written) has `fNbits = i + 1`
and `fNbytes = max (old fNbytes) (i / 8 + 1)`, its first old-`fNbytes` bytes
are the old bytes and all bytes added behind them are 0; the final state `t`
has the same two counters.  If `i < fNbits`, `fNbits` and `fNbytes` are
unchanged.  In both cases `t` differs from `r` only in byte `i / 8`. -/
theorem C12_setBit_size {s : TBits} (hs : Reachable s) {i : Nat} (hi : i < UINT - 1)
    (v : Bool) :
    ∃ r t, SetBitNumber.resize s i = some r ∧ SetBitNumber s i v = some t ∧
      (s.fNbits ≤ i →
        r.fNbits = i + 1 ∧ r.fNbytes = max s.fNbytes (i / 8 + 1) ∧
        (∀ q, q < s.fNbytes → r.load q = s.load q) ∧
        (∀ q, s.fNbytes ≤ q → q < r.fNbytes → r.load q = some 0) ∧
        t.fNbits = i + 1 ∧ t.fNbytes = max s.fNbytes (i / 8 + 1)) ∧
      (i < s.fNbits → t.fNbits = s.fNbits ∧ t.fNbytes = s.fNbytes) ∧
      (∀ q, q ≠ i / 8 → t.load q = r.load q) := by
  have hi2 : i < UINT := by unfold UINT at hi ⊢; omega
  have hmod : (i + 1) % UINT = i + 1 := by
    unfold UINT at hi ⊢; exact Nat.mod_eq_of_lt (by omega)
  have hwf := hs.wf
  obtain ⟨r, hr, hwr, rnb, rny, rby, _⟩ := resize_spec hwf hi2
  obtain ⟨t, ht, hwt, tnb, tny, tby⟩ := setBit_bytes hwf hi2 v
  refine ⟨r, t, hr, ht, ?_, ?_, ?_⟩
  · intro hge
    rw [if_pos hge] at rnb rny tnb tny
    rw [hmod] at rnb tnb
    have hle : s.fNbytes ≤ r.fNbytes := by rw [rny]; exact Nat.le_max_left _ _
    refine ⟨rnb, rny, ?_, ?_, tnb, tny⟩
    · intro q hq
      exact load_eq_of_byteAt hwr hwf (by omega) hq (rby q)
    · intro q h1 h2
      rw [(hwr.load_lt h2).1, rby q, (hwf.load_ge h1).2]
  · intro hlt
    have hnot : ¬ s.fNbits ≤ i := by omega
    rw [if_neg hnot] at tnb tny
    exact ⟨tnb, tny⟩
  · intro q hq
    have hsame : t.fNbytes = r.fNbytes := by rw [tny, rny]
    refine load_eq_of_same_size hwt hwr hsame ?_
    rw [tby q, if_neg hq, rby q]

/-- C12 (witness): `SetBitNumber(10, true)` on `TBits(0)`, which grows the
buffer from 1 to 2 bytes. -/
theorem C12_setBit_size_witness :
    Reachable (ctor 0) ∧ 10 < UINT - 1 ∧
      ∃ r t, SetBitNumber.resize (ctor 0) 10 = some r ∧
        SetBitNumber (ctor 0) 10 true = some t ∧
        ((ctor 0).fNbits ≤ 10 →
          r.fNbits = 10 + 1 ∧ r.fNbytes = max (ctor 0).fNbytes (10 / 8 + 1) ∧
          (∀ q, q < (ctor 0).fNbytes → r.load q = (ctor 0).load q) ∧
          (∀ q, (ctor 0).fNbytes ≤ q → q < r.fNbytes → r.load q = some 0) ∧
          t.fNbits = 10 + 1 ∧ t.fNbytes = max (ctor 0).fNbytes (10 / 8 + 1)) ∧
        (10 < (ctor 0).fNbits → t.fNbits = (ctor 0).fNbits ∧
          t.fNbytes = (ctor 0).fNbytes) ∧
        (∀ q, q ≠ 10 / 8 → t.load q = r.load q) :=
  ⟨Reach.ctor 0 (by decide), by decide,
    C12_setBit_size (s := ctor 0) (Reach.ctor 0 (by decide)) (i := 10) (by decide) true⟩

/-- C15: `Compact` retains the minimal leading part of the buffer.  On every
reachable vector `Compact` returns a state `t`.  On an empty vector
(`fNbits = 0` or no buffer) `t` is the vector itself.  On a non-empty vector
with buffer `buf` of `n = fNbytes` bytes, the new byte count `m` satisfies
`1 ≤ m ≤ n`, the new buffer is the first `m` bytes of `buf`, every byte of `buf`
at an index in `[m, n)` is 0, and `m = 1` or byte `m - 1` is nonzero. -/
theorem C15_compact_minimal {s : TBits} (hs : Reachable s) :
    ∃ t, Compact s = some t ∧
      ((s.fNbits = 0 ∨ s.fAllBits = none) → t = s) ∧
      (s.fNbits ≠ 0 → ∃ buf, s.fAllBits = some buf ∧
        1 ≤ t.fNbytes ∧ t.fNbytes ≤ s.fNbytes ∧
        t.fAllBits = some (buf.take t.fNbytes) ∧
        (∀ q, t.fNbytes ≤ q → q < s.fNbytes → buf[q]? = some 0) ∧
        (t.fNbytes = 1 ∨ ∃ b, buf[t.fNbytes - 1]? = some b ∧ b ≠ 0)) := by
  have hwf := hs.wf
  have hcov := hwf.cover
  obtain ⟨t, ht, hwt, hcase⟩ := compact_spec hwf
  refine ⟨t, ht, ?_, ?_⟩
  · intro he
    have : Compact s = some s := by simp [Compact, he]
    rw [this] at ht
    exact (Option.some.inj ht).symm
  · intro hne
    obtain ⟨buf, hb⟩ : ∃ buf, s.fAllBits = some buf := by
      cases hbuf : s.fAllBits with
      | none => have := hwf.null hbuf; omega
      | some buf => exact ⟨buf, rfl⟩
    refine ⟨buf, hb, ?_⟩
    have hlen : buf.length = s.fNbytes := hwf.len buf hb
    have hlast : ∀ m, 1 ≤ m → m ≤ s.fNbytes → byteAt s (m - 1) ≠ 0 →
        ∃ b, buf[m - 1]? = some b ∧ b ≠ 0 := by
      intro m h1 h2 h3
      refine ⟨byteAt s (m - 1), ?_, h3⟩
      rw [← load_of_buf hb]
      exact (hwf.load_lt (by omega)).1
    rcases hcase with ⟨heq, hwhy⟩ | ⟨_, hpos, hlt, _, hby, hl⟩
    · subst heq
      refine ⟨by omega, Nat.le_refl _, ?_, fun q h1 h2 => by omega, ?_⟩
      · rw [hb, ← hlen, List.take_length]
      · rcases hwhy with h | h | h | h
        · exact absurd h hne
        · rw [hb] at h; exact absurd h (by simp)
        · exact Or.inl h
        · exact Or.inr (hlast _ (by omega) (Nat.le_refl _) h)
    · refine ⟨hpos, by omega, ?_, ?_, ?_⟩
      · exact buffer_eq_take hwt hwf (by omega) (by omega) (fun q _ => hby q) hb
      · intro q h1 h2
        rw [← load_of_buf hb, (hwf.load_lt h2).1, ← hby q, (hwt.load_ge h1).2]
      · rcases hl with h | h
        · exact Or.inl h
        · exact Or.inr (hlast _ hpos (by omega) h)

/-- C15 (witness): `Compact` on `TBits(24)` after `SetBitNumber(9, true)`, which
keeps two of three bytes. -/
theorem C15_compact_minimal_witness :
    Reachable ⟨24, 3, some [0, 2, 0]⟩ ∧
      ∃ t, Compact ⟨24, 3, some [0, 2, 0]⟩ = some t ∧
        (((24 : Nat) = 0 ∨ some [0, 2, 0] = (none : Option (List Nat))) →
          t = ⟨24, 3, some [0, 2, 0]⟩) ∧
        ((24 : Nat) ≠ 0 → ∃ buf, some [0, 2, 0] = some buf ∧
          1 ≤ t.fNbytes ∧ t.fNbytes ≤ 3 ∧
          t.fAllBits = some (buf.take t.fNbytes) ∧
          (∀ q, t.fNbytes ≤ q → q < 3 → buf[q]? = some 0) ∧
          (t.fNbytes = 1 ∨ ∃ b, buf[t.fNbytes - 1]? = some b ∧ b ≠ 0)) :=
  ⟨Reach.setBit 9 true (Reach.ctor 24 (by decide)) (by decide) (by decide),
    C15_compact_minimal (s := ⟨24, 3, some [0, 2, 0]⟩)
      (Reach.setBit 9 true (Reach.ctor 24 (by decide)) (by decide) (by decide))⟩

/-- C16: the three lookup tables have 256 entries and agree with their bitwise
definitions at every byte value `b < 256`.  `nbits[b]` is the number of bit
positions below 8 at which `b` has a 1.  The table of `FirstSetBit` holds the
lowest bit position at which `b` has a 1, and 8 for `b = 0`.  The table of
`FirstNullBit` holds the lowest bit position at which `b` has a 0, and 8 for
`b = 255`. -/
theorem C16_tables (b : Nat) (hb : b < 256) :
    CountBits.nbits.length = 256 ∧ FirstSetBit.fbits.length = 256 ∧
      FirstNullBit.fbits.length = 256 ∧
      CountBits.nbits[b]? = some (popc b) ∧
      popc b = ((List.range 8).filter (fun k => b.testBit k)).length ∧
      FirstSetBit.fbits[b]? = some (lowBit true b) ∧
      (b = 0 → lowBit true b = 8) ∧
      (b ≠ 0 → lowBit true b < 8 ∧ b.testBit (lowBit true b) = true ∧
        ∀ k, k < lowBit true b → b.testBit k = false) ∧
      FirstNullBit.fbits[b]? = some (lowBit false b) ∧
      (b = 255 → lowBit false b = 8) ∧
      (b ≠ 255 → lowBit false b < 8 ∧ b.testBit (lowBit false b) = false ∧
        ∀ k, k < lowBit false b → b.testBit k = true) := by
  refine ⟨by rw [nbits_map]; simp, by rw [fset_map]; simp, by rw [fnull_map]; simp,
    nbits_get hb, ?_, fset_get hb, ?_, ?_, fnull_get hb, ?_, ?_⟩
  · unfold popc
    congr 1
    apply List.filter_congr
    intro k _
    exact bitOf_eq_testBit b k
  · intro h; rw [h]; decide
  · intro hne
    rcases lowBit_spec true b with ⟨h1, h2, h3⟩ | ⟨h1, _⟩
    · refine ⟨h1, by rw [← bitOf_eq_testBit]; exact h2, fun k hk => ?_⟩
      rw [← bitOf_eq_testBit]; exact h3 k hk
    · exact absurd (lowBit_true_eight b hb h1) hne
  · intro h; rw [h]; decide
  · intro hne
    rcases lowBit_spec false b with ⟨h1, h2, h3⟩ | ⟨h1, _⟩
    · refine ⟨h1, by rw [← bitOf_eq_testBit]; exact h2, fun k hk => ?_⟩
      rw [← bitOf_eq_testBit]; exact h3 k hk
    · exact absurd (lowBit_false_eight b hb h1) hne

/-- C16 (witness): the three table entries at the byte value 6. -/
theorem C16_tables_witness :
    (6 : Nat) < 256 ∧
      (CountBits.nbits.length = 256 ∧ FirstSetBit.fbits.length = 256 ∧
        FirstNullBit.fbits.length = 256 ∧
        CountBits.nbits[6]? = some (popc 6) ∧
        popc 6 = ((List.range 8).filter (fun k => Nat.testBit 6 k)).length ∧
        FirstSetBit.fbits[6]? = some (lowBit true 6) ∧
        ((6 : Nat) = 0 → lowBit true 6 = 8) ∧
        ((6 : Nat) ≠ 0 → lowBit true 6 < 8 ∧ Nat.testBit 6 (lowBit true 6) = true ∧
          ∀ k, k < lowBit true 6 → Nat.testBit 6 k = false) ∧
        FirstNullBit.fbits[6]? = some (lowBit false 6) ∧
        ((6 : Nat) = 255 → lowBit false 6 = 8) ∧
        ((6 : Nat) ≠ 255 → lowBit false 6 < 8 ∧ Nat.testBit 6 (lowBit false 6) = false ∧
          ∀ k, k < lowBit false 6 → Nat.testBit 6 k = true)) :=
  ⟨by decide, C16_tables 6 (by decide)⟩

/-- C17: on every reachable vector and for every `startBit < fNbits` that is
not a multiple of 8, `CountBits(startBit)` returns `8 - startBit % 8` if bit
`startBit` is set and 0 otherwise, plus the sum of the bit counts of all
stored bytes at a byte index above `startBit / 8`: the loop over the byte
holding `startBit` tests the fixed bit `startBit % 8` in each iteration. -/
theorem C17_countBits_unaligned {s : TBits} (hs : Reachable s) {startBit : Nat}
    (hlt : startBit < s.fNbits) (hmod : startBit % 8 ≠ 0) :
    CountBits s startBit
      = some ((if TestBitNumber s startBit = some true then 8 - startBit % 8 else 0)
          + byteSum s (startBit / 8 + 1) (s.fNbytes - (startBit / 8 + 1))) := by
  have hwf := hs.wf
  have hcov := hwf.cover
  have hny := hwf.nbytes_le
  have hq : startBit / 8 < s.fNbytes := by omega
  have h0 : ¬ startBit = 0 := by omega
  have hge : ¬ startBit ≥ s.fNbits := by omega
  have htest : (TestBitNumber s startBit = some true)
      ↔ bitOf (byteAt s (startBit / 8)) (startBit % 8) = true := by
    rw [hwf.testBit_eq]
    simp [hlt, bitAt]
  have hsum := byteSum_le s (s.fNbytes - (startBit / 8 + 1)) (startBit / 8 + 1)
  unfold CountBits
  rw [if_neg h0, if_neg hge]
  simp only [hmod, ne_eq, not_false_eq_true, if_true]
  rw [countBitLoop_eq hwf hq (startBit % 8) (8 - startBit % 8) (startBit % 8) 0
    (by unfold UINT; omega)]
  simp only [Nat.zero_add]
  by_cases hb : bitOf (byteAt s (startBit / 8)) (startBit % 8) = true
  · rw [if_pos hb, if_pos (htest.mpr hb),
      countLoop_eq hwf _ _ _ (by omega) (by unfold UINT; omega)]
    rw [Nat.mod_eq_of_lt (by unfold UINT; omega)]
  · rw [if_neg hb, if_neg (fun h => hb (htest.mp h)),
      countLoop_eq hwf _ _ _ (by omega) (by unfold UINT; omega)]
    rw [Nat.mod_eq_of_lt (by unfold UINT; omega)]

/-- C17 (witness): `CountBits(6)` on `TBits(0)` after `SetBitNumber(6, true)`. -/
theorem C17_countBits_unaligned_witness :
    Reachable ⟨7, 1, some [64]⟩ ∧ 6 < 7 ∧ 6 % 8 ≠ 0 ∧
      CountBits ⟨7, 1, some [64]⟩ 6
        = some ((if TestBitNumber ⟨7, 1, some [64]⟩ 6 = some true then 8 - 6 % 8 else 0)
            + byteSum ⟨7, 1, some [64]⟩ (6 / 8 + 1) (1 - (6 / 8 + 1))) :=
  ⟨Reach.setBit 6 true (Reach.ctor 0 (by decide)) (by decide) (by decide),
    by decide, by decide,
    C17_countBits_unaligned (s := ⟨7, 1, some [64]⟩)
      (Reach.setBit 6 true (Reach.ctor 0 (by decide)) (by decide) (by decide))
      (by decide) (by decide)⟩

/-- C19: storage covers the logical size.  In every state reachable from the
constructor by `SetBitNumber` calls whose `bitnumber + 1` does not wrap,
`ResetAllBits`, `Compact`, `Clear`, copy and assignment: `fNbits ≤ 8 * fNbytes`;
the buffer has exactly `fNbytes` bytes (`fNbytes = 0` when the pointer is
null); for `i < fNbits` the byte index `i / 8` read by `TestBitNumber` is inside
the buffer and the call returns the bit read there; and for every `i` with
`i + 1` not wrapping the byte index `i / 8` written by `SetBitNumber` is inside
the buffer left by the resizing part, so the call returns. -/
theorem C19_storage_covers {s : TBits} (hs : ReachableNoWrap s) :
    s.fNbits ≤ 8 * s.fNbytes ∧
      (s.fAllBits = none → s.fNbytes = 0) ∧
      (∀ buf, s.fAllBits = some buf → buf.length = s.fNbytes) ∧
      (∀ i, i < s.fNbits → ∃ buf b, s.fAllBits = some buf ∧ i / 8 < buf.length ∧
        buf[i / 8]? = some b ∧ TestBitNumber s i = some (bitOf b (i % 8))) ∧
      (∀ i v, i < UINT - 1 → ∃ r buf t, SetBitNumber.resize s i = some r ∧
        r.fAllBits = some buf ∧ buf.length = r.fNbytes ∧ i / 8 < buf.length ∧
        SetBitNumber s i v = some t) := by
  have hwf := hs.consistent
  have hcov := hwf.cover
  refine ⟨hcov, hwf.null, hwf.len, ?_, ?_⟩
  · intro i hi
    have hq : i / 8 < s.fNbytes := by omega
    obtain ⟨buf, hb, hlen⟩ := hwf.buf_of_pos (by omega)
    have hld := (hwf.load_lt hq).1
    refine ⟨buf, byteAt s (i / 8), hb, by omega, ?_, ?_⟩
    · rw [← load_of_buf hb]; exact hld
    · rw [hwf.testBit_eq]; simp [hi, bitAt]
  · intro i v hi
    have hi2 : i < UINT := by unfold UINT at hi ⊢; omega
    obtain ⟨r, hr, hwr, _, _, _, hloc⟩ := resize_spec hwf hi2
    obtain ⟨t, ht, _⟩ := setBit_bytes hwf hi2 v
    obtain ⟨buf, hb, hlen⟩ := hwr.buf_of_pos (by omega)
    exact ⟨r, buf, t, hr, hb, hlen, by omega, ht⟩

/-- C19 (witness): the statement at `TBits(0)` after `SetBitNumber(10, true)`. -/
theorem C19_storage_covers_witness :
    ReachableNoWrap ⟨11, 2, some [0, 4]⟩ ∧
      ((11 : Nat) ≤ 8 * 2 ∧
        (some [0, 4] = (none : Option (List Nat)) → (2 : Nat) = 0) ∧
        (∀ buf, some [0, 4] = some buf → buf.length = 2) ∧
        (∀ i, i < 11 → ∃ buf b, some [0, 4] = some buf ∧ i / 8 < buf.length ∧
          buf[i / 8]? = some b ∧
          TestBitNumber ⟨11, 2, some [0, 4]⟩ i = some (bitOf b (i % 8))) ∧
        (∀ i v, i < UINT - 1 → ∃ r buf t,
          SetBitNumber.resize ⟨11, 2, some [0, 4]⟩ i = some r ∧
          r.fAllBits = some buf ∧ buf.length = r.fNbytes ∧ i / 8 < buf.length ∧
          SetBitNumber ⟨11, 2, some [0, 4]⟩ i v = some t)) :=
  ⟨Reach.setBit 10 true (Reach.ctor 0 (by decide)) (by decide) (by decide),
    C19_storage_covers (s := ⟨11, 2, some [0, 4]⟩)
      (Reach.setBit 10 true (Reach.ctor 0 (by decide)) (by decide) (by decide))⟩

/-- Supporting result for C18: on every vector reachable without wrap-around,
`Compact` returns a state on which `TestBitNumber(i)` is what it was before,
for every `i`, and `CountBits(0)` is what it was before. -/
theorem compact_keeps_observations {s : TBits} (hs : ReachableNoWrap s) :
    ∃ t, Compact s = some t ∧ (∀ i, TestBitNumber t i = TestBitNumber s i) ∧
      CountBits t 0 = CountBits s 0 := by
  have hwf := hs.consistent
  obtain ⟨t, ht, hwt, hcase⟩ := compact_spec hwf
  have hrt : ReachableNoWrap t := Reach.compact hs ht
  refine ⟨t, ht, ?_⟩
  rcases hcase with ⟨heq, _⟩ | ⟨_, _, hlt, _, hby, _⟩
  · rw [heq]; exact ⟨fun _ => rfl, rfl⟩
  · refine ⟨fun i => ?_, ?_⟩
    · rw [testBit_eq_bitAt hwt hrt.pad, testBit_eq_bitAt hwf hs.pad]
      unfold bitAt; rw [hby]
    · unfold CountBits
      rw [if_pos rfl, if_pos rfl,
        countLoop_eq hwt t.fNbytes 0 0 (by omega) (by decide),
        countLoop_eq hwf s.fNbytes 0 0 (by omega) (by decide),
        byteSum_of_dropped hwt (by omega) hby]

/-- C18: `TBits(8)` with `SetBitNumber(9, true)` is the state with `fNbits = 10`
and the bytes 0, 2.  After `SetBitNumber(4294967295, false)`, where `fNbits`
wraps to 0, and `SetBitNumber(0, false)` the reachable vector `s3` has
`fNbits = 1` with bit 9 still stored, and `TestBitNumber(9)` is false.
`Compact` drops the trailing zero bytes and sets `fNbits = 8 * fNbytes`, after
which `TestBitNumber(9)` is true. -/
theorem C18_compact_after_wrap_uncovers_bit :
    SetBitNumber (ctor 8) 9 true = some ⟨10, 2, some [0, 2]⟩ ∧
      ∃ s2 s3 t, SetBitNumber ⟨10, 2, some [0, 2]⟩ 4294967295 false = some s2 ∧
        SetBitNumber s2 0 false = some s3 ∧ Reachable s3 ∧
        TestBitNumber s3 9 = some false ∧
        Compact s3 = some t ∧ TestBitNumber t 9 = some true := by
  have h1 : SetBitNumber (ctor 8) 9 true = some ⟨10, 2, some [0, 2]⟩ := by decide
  have hr1 : Reachable ⟨10, 2, some [0, 2]⟩ :=
    Reach.setBit 9 true (Reach.ctor 8 (by decide)) (by decide) h1
  have w1 := hr1.wf
  obtain ⟨s2, h2, w2, n2, y2, b2⟩ := setBit_bytes w1 (i := 4294967295) (by decide) false
  obtain ⟨s3, h3, w3, n3, y3, b3⟩ := setBit_bytes w2 (i := 0) (by decide) false
  have hr3 : Reachable s3 :=
    Reach.setBit 0 false (Reach.setBit 4294967295 false hr1 (by decide) h2) (by decide) h3
  have hn2 : s2.fNbits = 0 := by rw [n2]; decide
  have hy2 : s2.fNbytes = 536870912 := by rw [y2]; decide
  have hn3 : s3.fNbits = 1 := by rw [n3, hn2]; decide
  have hy3 : s3.fNbytes = 536870912 := by rw [y3, hn2, hy2]; decide
  have hb2 : byteAt s2 1 = 2 := by rw [b2]; decide
  have hb3 : byteAt s3 1 = 2 := by rw [b3, if_neg (by decide), hb2]
  have hl1 : byteAt ⟨10, 2, some [0, 2]⟩ 536870911 = 0 :=
    (w1.load_ge (by decide)).2
  have hl2 : byteAt s2 536870911 = 0 := by rw [b2, hl1]; decide
  have hl3 : byteAt s3 536870911 = 0 := by rw [b3, if_neg (by decide), hl2]
  obtain ⟨t, ht, hwt, hcase⟩ := compact_spec w3
  refine ⟨h1, s2, s3, t, h2, h3, hr3, ?_, ht, ?_⟩
  · rw [w3.testBit_eq, hn3]; rfl
  · rcases hcase with ⟨_, hwhy⟩ | ⟨_, _, _, hnb, hby, _⟩
    · exfalso
      rcases hwhy with h | h | h | h
      · omega
      · have := w3.null h; omega
      · omega
      · rw [hy3] at h; exact h hl3
    · have ht1 : byteAt t 1 = 2 := by rw [hby, hb3]
      have hbig : 1 < t.fNbytes := by
        by_contra hle
        rw [(hwt.load_ge (by omega)).2] at ht1
        exact absurd ht1 (by decide)
      have hlt : 9 < t.fNbits := by omega
      rw [hwt.testBit_eq]
      unfold bitAt
      rw [show 9 / 8 = 1 from rfl, ht1]
      simp [hlt]
      decide

/-- Supporting result for C20: on every vector reachable without wrap-around
and for every `startBit` that is a multiple of 8, `CountBits(startBit)` returns
the number of indices `i` with `startBit ≤ i < fNbits` that test true. -/
theorem countBits_aligned_exact {s : TBits} (hs : ReachableNoWrap s) {startBit : Nat}
    (hmod : startBit % 8 = 0) : CountBits s startBit = some (setCount s startBit) := by
  have hwf := hs.consistent
  have hpad := hs.pad
  have hcov := hwf.cover
  have hnb := hwf.nbits_lt
  by_cases h0 : startBit = 0
  · rw [h0]; exact countBits_zero_exact hs
  · unfold CountBits
    rw [if_neg h0]
    by_cases hge : startBit ≥ s.fNbits
    · rw [if_pos hge, setCount_eq_filter hwf hpad startBit 0 (by omega)]
      rfl
    · rw [if_neg hge]
      have hib : ¬ startBit % 8 ≠ 0 := by omega
      simp only [hib, if_false]
      rw [countLoop_eq hwf _ _ _ (by omega) (by decide), Nat.zero_add,
        byteSum_eq_filter,
        setCount_eq_filter hwf hpad startBit (8 * (s.fNbytes - startBit / 8)) (by omega),
        show 8 * (startBit / 8) = startBit by omega]
      have h1 := setCount_le s startBit
      rw [setCount_eq_filter hwf hpad startBit (8 * (s.fNbytes - startBit / 8))
        (by omega)] at h1
      rw [Nat.mod_eq_of_lt (by omega)]

/-- C20: `TBits(8)` with `SetBitNumber(20, true)` is the state with `fNbits = 21`
and the bytes 0, 0, 16.  After `SetBitNumber(4294967295, false)`, where `fNbits`
wraps to 0, and `SetBitNumber(8, false)` the reachable vector `s3` has
`fNbits = 9` with bit 20 still stored.  `CountBits(8)`, a byte-aligned start,
returns 1 while no index in `[8, 9)` tests true. -/
theorem C20_countBits_aligned_after_wrap :
    SetBitNumber (ctor 8) 20 true = some ⟨21, 3, some [0, 0, 16]⟩ ∧
      ∃ s2 s3, SetBitNumber ⟨21, 3, some [0, 0, 16]⟩ 4294967295 false = some s2 ∧
        SetBitNumber s2 8 false = some s3 ∧ Reachable s3 ∧ s3.fNbits = 9 ∧
        CountBits s3 8 = some 1 ∧ setCount s3 8 = 0 := by
  have h1 : SetBitNumber (ctor 8) 20 true = some ⟨21, 3, some [0, 0, 16]⟩ := by decide
  have hr1 : Reachable ⟨21, 3, some [0, 0, 16]⟩ :=
    Reach.setBit 20 true (Reach.ctor 8 (by decide)) (by decide) h1
  have w1 := hr1.wf
  obtain ⟨s2, h2, w2, n2, y2, b2⟩ := setBit_bytes w1 (i := 4294967295) (by decide) false
  obtain ⟨s3, h3, w3, n3, y3, b3⟩ := setBit_bytes w2 (i := 8) (by decide) false
  have hr3 : Reachable s3 :=
    Reach.setBit 8 false (Reach.setBit 4294967295 false hr1 (by decide) h2) (by decide) h3
  have hn2 : s2.fNbits = 0 := by rw [n2]; decide
  have hy2 : s2.fNbytes = 536870912 := by rw [y2]; decide
  have hn3 : s3.fNbits = 9 := by rw [n3, hn2]; decide
  have hy3 : s3.fNbytes = 536870912 := by rw [y3, hn2, hy2]; decide
  have hs1 : ∀ q, q ≠ 2 → byteAt ⟨21, 3, some [0, 0, 16]⟩ q = 0 := by
    intro q hq
    by_cases h3 : q < 3
    · interval_cases q
      · rfl
      · rfl
      · exact absurd rfl hq
    · exact (w1.load_ge (by simpa using h3)).2
  have hs2 : ∀ q, q ≠ 2 → byteAt s2 q = 0 := by
    intro q hq
    rw [b2]
    by_cases hq2 : q = 4294967295 / 8
    · rw [if_pos hq2, hs1 _ (by decide)]; decide
    · rw [if_neg hq2]; exact hs1 q hq
  have hb2 : byteAt s2 2 = 16 := by rw [b2]; decide
  have hs3 : ∀ q, q ≠ 2 → byteAt s3 q = 0 := by
    intro q hq
    rw [b3]
    by_cases hq1 : q = 8 / 8
    · rw [if_pos hq1, hs2 _ (by decide)]; decide
    · rw [if_neg hq1]; exact hs2 q hq
  have hb3 : byteAt s3 2 = 16 := by rw [b3, if_neg (by decide), hb2]
  have hbit8 : bitAt s3 8 = false := by
    unfold bitAt
    rw [show 8 / 8 = 1 from rfl, hs3 1 (by decide)]
    decide
  refine ⟨h1, s2, s3, h2, h3, hr3, hn3, ?_, ?_⟩
  · unfold CountBits
    rw [if_neg (by decide), if_neg (by rw [hn3]; decide)]
    simp only [show ¬ (8 % 8 ≠ 0) by decide, if_false]
    rw [countLoop_eq w3 _ _ _ (by omega) (by decide), Nat.zero_add, hy3,
      byteSum_single s3 2 _ _ (by decide) (by decide) (fun q _ _ hq => hs3 q hq), hb3]
    decide
  · unfold setCount
    rw [hn3]
    have hnil : List.filter
        (fun i => decide (8 ≤ i) && (TestBitNumber s3 i == some true)) (List.range 9)
        = [] := by
      rw [List.filter_eq_nil_iff]
      intro a ha
      have ha9 := List.mem_range.mp ha
      by_cases h8 : a = 8
      · rw [h8, w3.testBit_eq, hbit8]; simp
      · simp; omega
    rw [hnil]; rfl

end TBits
